import Mathlib

/-!
backup-rsync: configuration resolution, path ordering and retention sweep.

A shallow embedding of `backup-rsync.go` and the properties its specification states.

Modelling conventions:

* a Go `interface{}` field decoded from YAML is a `Value`: `nil` when the key is absent
  (or an explicit YAML null), otherwise the dynamic value;
* a type assertion `v.(int)` / `v.(string)` on a value of another dynamic type panics, and
  `log.Fatal` ends the process: both are a `Failure` in `Except`;
* Go `int` values are mathematical integers (`Int`); where the code does `int64` arithmetic
  that can wrap (the expiry test), the wrap is explicit (`wrap64`);
* strings are compared like Go compares them (lexicographically by code unit; for valid
  UTF-8 this is the order of `String`).
-/

namespace BackupRsync

/-! ## Data model -/

/-- Dynamic value of a Go `interface{}` field. `other` stands for every dynamic type that is
neither `int` nor `string` (bool, float64, int64, list, map, ...). -/
inductive Value where
  | nil
  | int (n : Int)
  | str (s : String)
  | other (tag : Nat)
  deriving DecidableEq, Repr

deriving instance DecidableEq for Except

/-- Ways a run can stop abnormally. -/
inductive Failure where
  | panic
  | fatal
  deriving DecidableEq, Repr

/-- Element of `Config.Hosts[_].Dirs`. -/
structure Dir where
  Path : String
  Retention_days : Value
  Bandwidth_limit : Value
  deriving DecidableEq, Repr

/-- Element of `Config.Hosts`. -/
structure Host where
  Name : String
  Limit_concurrent_rsync : Value
  Retention_days : Value
  Login_user : Value
  Dirs : List Dir
  deriving DecidableEq, Repr

/-- The Go struct `Config`. -/
structure Config where
  Root_dir : Value
  Concurrent_rsync : Value
  Retention_days : Value
  Hosts : List Host
  deriving DecidableEq, Repr

/-- The Go struct `Path`. -/
structure Path where
  host : String
  path : String
  retentionDays : Int
  concurrentRsyncLimit : Int
  bandwidthLimit : Value
  loginUser : Value
  deriving DecidableEq, Repr

def defaultConcurrentRsync : Int := 3

def defaultRetentionDays : Int := 7

/-- The type assertion `v.(int)`. -/
def assertInt : Value → Except Failure Int
  | .int n => .ok n
  | _ => .error .panic

/-- The type assertion `v.(string)`. -/
def assertString : Value → Except Failure String
  | .str s => .ok s
  | _ => .error .panic

/-! ## validateParams -/

/-- The function `validateParams`: fills the two defaults, then insists on `root_dir`. -/
def validateParams (config : Config) : Except Failure Config :=
  let config :=
    if config.Concurrent_rsync = Value.nil then
      { config with Concurrent_rsync := Value.int defaultConcurrentRsync }
    else config
  let config :=
    if config.Retention_days = Value.nil then
      { config with Retention_days := Value.int defaultRetentionDays }
    else config
  if config.Root_dir = Value.nil then .error .fatal else .ok config

/-! ## getPaths -/

/-- Lines 104-110 of `getPaths`: the retention of one directory. -/
def resolveRetention (config : Config) (host : Host) (dir : Dir) : Except Failure Int :=
  if dir.Retention_days ≠ Value.nil then assertInt dir.Retention_days
  else if host.Retention_days ≠ Value.nil then assertInt host.Retention_days
  else assertInt config.Retention_days

/-- Lines 112-120 of `getPaths`: the concurrency limit of one host. -/
def resolveLimit (config : Config) (host : Host) : Except Failure Int :=
  if host.Limit_concurrent_rsync ≠ Value.nil then
    match assertInt host.Limit_concurrent_rsync with
    | .error e => .error e
    | .ok h =>
      match assertInt config.Concurrent_rsync with
      | .error e => .error e
      | .ok g =>
        if h > g then assertInt config.Concurrent_rsync
        else assertInt host.Limit_concurrent_rsync
  else assertInt config.Concurrent_rsync

/-- Body of the inner loop of `getPaths` for a directory with a non-empty path. -/
def resolveDir (config : Config) (host : Host) (dir : Dir) : Except Failure Path :=
  match resolveRetention config host dir with
  | .error e => .error e
  | .ok r =>
    match resolveLimit config host with
    | .error e => .error e
    | .ok l =>
      .ok { host := host.Name, path := dir.Path, retentionDays := r,
            concurrentRsyncLimit := l, bandwidthLimit := dir.Bandwidth_limit,
            loginUser := host.Login_user }

/-- Inner loop of `getPaths` over `host.Dirs`, appending to `paths`. -/
def getPathsDirs (config : Config) (host : Host) : List Dir → List Path → Except Failure (List Path)
  | [], paths => .ok paths
  | dir :: rest, paths =>
    if dir.Path = "" then getPathsDirs config host rest paths
    else
      match resolveDir config host dir with
      | .error e => .error e
      | .ok p => getPathsDirs config host rest (paths ++ [p])

/-- Outer loop of `getPaths` over `config.Hosts`. -/
def getPathsHosts (config : Config) : List Host → List Path → Except Failure (List Path)
  | [], paths => .ok paths
  | host :: rest, paths =>
    match getPathsDirs config host host.Dirs paths with
    | .error e => .error e
    | .ok paths => getPathsHosts config rest paths

/-- The function `getPaths`. -/
def getPaths (config : Config) : Except Failure (List Path) :=
  getPathsHosts config config.Hosts []

/-! ## validatePaths -/

/-- The replacement `regexp.MustCompile("/$").ReplaceAllString(s, "")`: the pattern matches a
slash that is the last character of the text, so at most one slash, the final one, is
removed. -/
def stripTrailingSlash (s : String) : String :=
  if s.data.getLast? = some '/' then String.mk s.data.dropLast else s

/-- The test `regexp.MatchString("^[\\.]{1,2}$", s)`: the whole text is one or two dots. -/
def matchDots (s : String) : Bool :=
  decide (s = ".") || decide (s = "..")

/-- First loop of `validatePaths`: every path loses its trailing slash. -/
def stripPaths (paths : List Path) : List Path :=
  paths.map fun p => { p with path := stripTrailingSlash p.path }

/-- Second loop of `validatePaths`, counting down: `n` is `i + 1`, the number of indices
not yet visited. Reading `paths[i]` outside the slice panics. -/
def dropDotPaths : Nat → List Path → Except Failure (List Path)
  | 0, paths => .ok paths
  | i + 1, paths =>
    match paths.get? i with
    | none => .error .panic
    | some p =>
      if matchDots p.path then dropDotPaths i (paths.eraseIdx i)
      else dropDotPaths i paths

/-- The function `validatePaths`; the configuration it updates through the pointer is returned
next to the path list. -/
def validatePaths (paths : List Path) (config : Config) : Except Failure (List Path × Config) :=
  match assertString config.Root_dir with
  | .error e => .error e
  | .ok root =>
    let config := { config with Root_dir := Value.str (stripTrailingSlash root) }
    let paths := stripPaths paths
    match dropDotPaths paths.length paths with
    | .error e => .error e
    | .ok paths => .ok (paths, config)

/-! ## preparePathsOrder -/

/-- The Go map `map[string][]Path`, as an association list with distinct keys. -/
abbrev HostMap := List (String × List Path)

/-- Reading `m[host]`: the zero value (an empty slice) when the key is missing. -/
def HostMap.get : HostMap → String → List Path
  | [], _ => []
  | (k, v) :: rest, host => if k = host then v else HostMap.get rest host

/-- The assignment `m[host] = q`. -/
def HostMap.set : HostMap → String → List Path → HostMap
  | [], host, q => [(host, q)]
  | (k, v) :: rest, host, q =>
    if k = host then (k, q) :: rest else (k, v) :: HostMap.set rest host q

/-- The keys of the map. -/
def HostMap.keys (m : HostMap) : List String :=
  m.map Prod.fst

/-- First loop of `preparePathsOrder`: `m[p.host] = append(m[p.host], p)`. -/
def groupByHost (paths : List Path) : HostMap :=
  paths.foldl (fun m p => m.set p.host (m.get p.host ++ [p])) []

/-- Lexicographic comparison of two sequences of code units. -/
def lexLE : List Nat → List Nat → Bool
  | [], _ => true
  | _ :: _, [] => false
  | a :: as, b :: bs => if a < b then true else if b < a then false else lexLE as bs

/-- The order `sort.Strings` sorts by: Go's `<=` on strings, which compares them code unit by
code unit (for UTF-8 text this is the order of the code points). -/
def hostLE (a b : String) : Prop :=
  lexLE (a.data.map Char.toNat) (b.data.map Char.toNat) = true

instance : DecidableRel hostLE := fun a b =>
  inferInstanceAs (Decidable (lexLE (a.data.map Char.toNat) (b.data.map Char.toNat) = true))

/-- The call `sort.Strings(keys)`. -/
def sortStrings (keys : List String) : List String :=
  keys.insertionSort hostLE

/-- Body of the loop over the sorted keys: move the head of the queue of `host`, if there is
one, to the end of `pathsSorted`. -/
def emitHead (st : HostMap × List Path) (host : String) : HostMap × List Path :=
  match st.1.get host with
  | [] => st
  | p :: rest => (st.1.set host rest, st.2 ++ [p])

/-- One pass of the inner loop over all sorted keys. -/
def emitRound (keys : List String) (st : HostMap × List Path) : HostMap × List Path :=
  keys.foldl emitHead st

/-- The outer loop `for i := 0; i < len(paths); i++`, running `n` passes. -/
def emitRounds (keys : List String) : Nat → HostMap × List Path → HostMap × List Path
  | 0, st => st
  | n + 1, st => emitRounds keys n (emitRound keys st)

/-- The function `preparePathsOrder`. -/
def preparePathsOrder (paths : List Path) : List Path :=
  let m := groupByHost paths
  let keys := sortStrings m.keys
  (emitRounds keys paths.length (m, [])).2

/-! ## prepareCommands -/

/-- The Go struct `Command`. -/
structure Command where
  cmd : String
  args : List String
  deriving DecidableEq, Repr

def rsyncLogFilePattern : String := "/var/log/backup-rsync"

/-- The text without its trailing slashes (first loop of `path.Base`). -/
def trimSlashes (l : List Char) : List Char :=
  (l.reverse.dropWhile fun c => c = '/').reverse

/-- The text after the last slash, all of it when there is none (`strings.LastIndex` and the
slice `path[i+1:]` in `path.Base`). -/
def afterLastSlash (l : List Char) : List Char :=
  (l.reverse.takeWhile fun c => c ≠ '/').reverse

/-- The library function `path.Base`: `.` for the empty path, `/` for a path of slashes
only, else the last element of the path with trailing slashes removed. -/
def pathBase (path : String) : String :=
  if path = "" then "."
  else
    let last := afterLastSlash (trimSlashes path.data)
    if last = [] then "/" else String.mk last

/-- The decimal digit of a number below ten. -/
def digitChar (n : Nat) : Char :=
  Char.ofNat (48 + n % 10)

/-- Decimal digits of a number, most significant first; `fuel` bounds the number of digits. -/
def decimalDigits : Nat → Nat → List Char
  | 0, _ => []
  | fuel + 1, n =>
    if n < 10 then [digitChar n] else decimalDigits fuel (n / 10) ++ [digitChar n]

/-- The library function `appendInt` of package `time`, also `%d` of `fmt`: a minus sign for
a negative number, zeros up to `width` digits, the decimal digits. -/
def appendInt (x : Int) (width : Nat) : List Char :=
  let digits := decimalDigits (x.natAbs + 1) x.natAbs
  (if x < 0 then ['-'] else []) ++ List.replicate (width - digits.length) '0' ++ digits

/-- A reading of the clock, as the calendar date `time.Now()` has in the local zone. -/
structure Date where
  year : Int
  month : Nat
  day : Nat
  deriving DecidableEq, Repr

/-- The call `Format("2006-01-02")` on a date. -/
def formatDate (d : Date) : String :=
  String.mk (appendInt d.year 4 ++ ['-'] ++ appendInt d.month 2 ++ ['-'] ++ appendInt d.day 2)

/-- The body of the loop of `prepareCommands`: the command for one path, `today` being the
date of `time.Now()` when the argument list is built. -/
def prepareCommand (config : Config) (today : Date) (p : Path) : Except Failure Command :=
  match assertString config.Root_dir with
  | .error e => .error e
  | .ok root =>
    let args := [
      "-avHAX",
      "--delete",
      "--backup",
      "--backup-dir=" ++ root ++ "/" ++ p.host ++ "/" ++ pathBase p.path ++ "/"
        ++ formatDate today,
      "--log-file=" ++ rsyncLogFilePattern ++ "." ++ p.host ++ ".log"]
    let withLimit : Except Failure (List String) :=
      if p.bandwidthLimit ≠ Value.nil then
        match assertInt p.bandwidthLimit with
        | .error e => .error e
        | .ok n => .ok (args ++ ["--bwlimit=" ++ String.mk (appendInt n 0)])
      else .ok args
    match withLimit with
    | .error e => .error e
    | .ok args =>
      let withSource : Except Failure (List String) :=
        if p.loginUser ≠ Value.nil then
          match assertString p.loginUser with
          | .error e => .error e
          | .ok user => .ok (args ++ [user ++ "@" ++ p.host ++ ":" ++ p.path ++ "/"])
        else .ok (args ++ [p.host ++ ":" ++ p.path ++ "/"])
      match withSource with
      | .error e => .error e
      | .ok args =>
        match assertString config.Root_dir with
        | .error e => .error e
        | .ok root =>
          .ok { cmd := "rsync",
                args := args ++ [root ++ "/" ++ p.host ++ "/" ++ pathBase p.path ++ "/current/"] }

/-- The loop of `prepareCommands`; `clock i` is the date read in iteration `i`. -/
def prepareCommandsFrom (config : Config) (clock : Nat → Date) :
    List Path → Nat → List Command → Except Failure (List Command)
  | [], _, cmds => .ok cmds
  | p :: rest, i, cmds =>
    match prepareCommand config (clock i) p with
    | .error e => .error e
    | .ok s => prepareCommandsFrom config clock rest (i + 1) (cmds ++ [s])

/-- The function `prepareCommands`. -/
def prepareCommands (paths : List Path) (config : Config) (clock : Nat → Date) :
    Except Failure (List Command) :=
  prepareCommandsFrom config clock paths 0 []

/-! ## deleteExpiredBackups -/

/-- Reduction of an integer to the range of `int64`, as Go arithmetic does on overflow. -/
def wrap64 (x : Int) : Int :=
  (x + 2 ^ 63) % 2 ^ 64 - 2 ^ 63

/-- Value of a decimal digit, if the character is one. -/
def digitVal (c : Char) : Option Nat :=
  if '0' ≤ c ∧ c ≤ '9' then some (c.toNat - '0'.toNat) else none

/-- Leap years of the proleptic Gregorian calendar (`time.isLeap`). -/
def isLeap (year : Nat) : Bool :=
  year % 4 = 0 && (year % 100 ≠ 0 || year % 400 = 0)

/-- Number of days of a month (`time.daysIn`). -/
def daysIn (month year : Nat) : Nat :=
  if month = 2 then (if isLeap year then 29 else 28)
  else if month = 4 ∨ month = 6 ∨ month = 9 ∨ month = 11 then 30
  else 31

/-- Days of a common year before the first of a month (the table `time.daysBefore`). -/
def daysBefore (month : Nat) : Nat :=
  [0, 31, 59, 90, 120, 151, 181, 212, 243, 273, 304, 334].getD (month - 1) 0

/-- Days from 0000-01-01 to the first of January of `year`. -/
def daysBeforeYear (year : Nat) : Nat :=
  365 * year + (year + 3) / 4 - (year + 99) / 100 + (year + 399) / 400

/-- Day number of a calendar date, counted from 1970-01-01. -/
def civilDay (year month day : Nat) : Int :=
  (daysBeforeYear year + daysBefore month + (if isLeap year ∧ 3 ≤ month then 1 else 0)
    + (day - 1) : Nat) - 719528

/-- The call `time.Parse("2006-01-02", name)`: four digits, a dash, two digits, a dash, two
digits and nothing else, with the month in 1..12 and the day within the month. The result is
the date; `none` is a parse error. -/
def parseDate (name : String) : Option (Nat × Nat × Nat) :=
  match name.data with
  | [y1, y2, y3, y4, s1, m1, m2, s2, d1, d2] =>
    match digitVal y1, digitVal y2, digitVal y3, digitVal y4,
          digitVal m1, digitVal m2, digitVal d1, digitVal d2 with
    | some a, some b, some c, some d, some e, some f, some g, some h =>
      let year := 1000 * a + 100 * b + 10 * c + d
      let month := 10 * e + f
      let day := 10 * g + h
      if s1 = '-' ∧ s2 = '-' ∧ 1 ≤ month ∧ month ≤ 12 ∧ 1 ≤ day ∧ day ≤ daysIn month year then
        some (year, month, day)
      else none
    | _, _, _, _, _, _, _, _ => none
  | _ => none

/-- The value `t.Unix()` of a successfully parsed name: midnight UTC of that date. -/
def parseUnix (name : String) : Option Int :=
  match parseDate name with
  | some (y, m, d) => some (civilDay y m d * 86400)
  | none => none

/-- The test of line 201, `time.Now().Unix() - t.Unix() > int64(p.retentionDays) * 86400`,
in `int64` arithmetic. -/
def expired (now t retentionDays : Int) : Bool :=
  decide (wrap64 (now - t) > wrap64 (wrap64 retentionDays * 86400))

/-- Whether the sweep removes the directory entry `name`: its name parses as a date and the
expiry test holds. -/
def selectedForDeletion (now retentionDays : Int) (name : String) : Bool :=
  match parseUnix name with
  | some t => expired now t retentionDays
  | none => false

/-- The entries of one snapshot directory that `deleteExpiredBackups` removes for a path with
the given retention, out of the directory listing `items`. -/
def deleteExpiredBackups (now retentionDays : Int) (items : List String) : List String :=
  items.filter (selectedForDeletion now retentionDays)

/-- Calendar day number (from 1970-01-01) of the instant `now` in a zone `offset` seconds east
of UTC. -/
def dayOf (now offset : Int) : Int :=
  (now + offset) / 86400

/-- Seconds elapsed since local midnight at the instant `now`. -/
def secondOfDay (now offset : Int) : Int :=
  (now + offset) % 86400


/-- The directory `deleteExpiredBackups` lists for a path (line 194):
`root + "/" + p.host + "/" + path.Base(p.path)`. -/
def scanDir (root : String) (p : Path) : String :=
  root ++ "/" ++ p.host ++ "/" ++ pathBase p.path

/-- The body of the loop of `deleteExpiredBackups` for one path: when the directory exists
(`fs` gives its listing, `none` when `os.Stat` reports that it does not exist), the full
paths handed to `os.RemoveAll`. -/
def sweepPath (now : Int) (fs : String → Option (List String)) (root : String) (p : Path) :
    List String :=
  match fs (scanDir root p) with
  | none => []
  | some items =>
    (deleteExpiredBackups now p.retentionDays items).map fun name =>
      scanDir root p ++ "/" ++ name

/-- The loop of `deleteExpiredBackups` over all paths, every directory listed as it is on the
disk `fs` before the sweep: the paths handed to `os.RemoveAll`, in order, when no removal
changes a later listing; the assertion `config.Root_dir.(string)` is made once per path.
The code lists a directory again for each path, after the earlier removals, so when two
paths share a directory and removals succeed it removes a sub-list of these paths. -/
def sweepPaths (now : Int) (fs : String → Option (List String)) (config : Config) :
    List Path → Except Failure (List String)
  | [] => .ok []
  | p :: rest =>
    match assertString config.Root_dir with
    | .error e => .error e
    | .ok root =>
      match sweepPaths now fs config rest with
      | .error e => .error e
      | .ok removed => .ok (sweepPath now fs root p ++ removed)

/-! ## Vocabulary of the specification -/

/-- An optional integer key: absent, or an `int`. -/
def Value.isOptInt : Value → Bool
  | .nil => true
  | .int _ => true
  | _ => false

/-- An optional string key: absent, or a `string`. -/
def Value.isOptString : Value → Bool
  | .nil => true
  | .str _ => true
  | _ => false

/-- The configuration document has the types the specification gives its keys: `root_dir` a
string, `concurrent_rsync`, `retention_days`, `limit_concurrent_rsync` and `bandwidth_limit`
optional integers, `login_user` an optional string. -/
def WellTyped (config : Config) : Bool :=
  config.Root_dir.isOptString && config.Concurrent_rsync.isOptInt
    && config.Retention_days.isOptInt
    && config.Hosts.all fun h =>
      h.Limit_concurrent_rsync.isOptInt && h.Retention_days.isOptInt
        && h.Login_user.isOptString
        && h.Dirs.all fun d => d.Retention_days.isOptInt && d.Bandwidth_limit.isOptInt

/-- Every configured (host, directory) pair, in configuration order. -/
def allDirs (config : Config) : List (Host × Dir) :=
  config.Hosts.flatMap fun h => h.Dirs.map fun d => (h, d)

/-- The pairs `getPaths` makes an entry for: those with a non-empty path. -/
def nonEmptyDirs (config : Config) : List (Host × Dir) :=
  (allDirs config).filter fun hd => decide (hd.2.Path ≠ "")

/-- The pairs that survive `getPaths` and `validatePaths`: the path is not empty and, once
normalized, is neither `.` nor `..`. -/
def keptDirs (config : Config) : List (Host × Dir) :=
  (allDirs config).filter fun hd =>
    decide (hd.2.Path ≠ "") && !matchDots (stripTrailingSlash hd.2.Path)

/-- The first of the values that is set, in the words of the specification: the directory's
`retention_days`, else the host's, else the global one, else 7. -/
def specRetention (config : Config) (host : Host) (dir : Dir) : Value :=
  if dir.Retention_days ≠ Value.nil then dir.Retention_days
  else if host.Retention_days ≠ Value.nil then host.Retention_days
  else if config.Retention_days ≠ Value.nil then config.Retention_days
  else Value.int 7

/-- The global `concurrent_rsync`, 3 when it is not set. -/
def specGlobalLimit (config : Config) : Value :=
  if config.Concurrent_rsync ≠ Value.nil then config.Concurrent_rsync else Value.int 3

/-- The round-robin interleaving in the words of the specification: round `r` lists, in
ascending host order, the `r`-th entry (in input order) of every host with more than `r`
entries. -/
def specRound (paths : List Path) (r : Nat) : List Path :=
  (sortStrings (paths.map (·.host)).dedup).filterMap fun h =>
    (paths.filter fun p => p.host = h).get? r

/-- Concatenation of the rounds `0, 1, ..., n - 1` of the specification. -/
def specInterleave (paths : List Path) (n : Nat) : List Path :=
  (List.range n).flatMap (specRound paths)

/-- The dated rotation directory in the words of the specification:
`<rootDir>/<host>/<baseName(path)>/<today, YYYY-MM-DD>`. -/
def specBackupDir (root : String) (p : Path) (today : Date) : String :=
  root ++ "/" ++ p.host ++ "/" ++ pathBase p.path ++ "/" ++ formatDate today

/-- The live mirror directory in the words of the specification:
`<rootDir>/<host>/<baseName(path)>/current`. -/
def specMirrorDir (root : String) (p : Path) : String :=
  root ++ "/" ++ p.host ++ "/" ++ pathBase p.path ++ "/" ++ "current"

/-- The source address in the words of the specification: `<loginUser>@<host>:<path>/` when
a login user is set, else `<host>:<path>/`. -/
def specSource (p : Path) : String :=
  match p.loginUser with
  | .str user => user ++ "@" ++ p.host ++ ":" ++ p.path ++ "/"
  | _ => p.host ++ ":" ++ p.path ++ "/"

/-- The rate-limit argument, present when a bandwidth limit is set. -/
def specLimitArgs (p : Path) : List String :=
  match p.bandwidthLimit with
  | .int n => ["--bwlimit=" ++ String.mk (appendInt n 0)]
  | _ => []

/-- The elements of a path, cut at every slash; `cur` holds, reversed, the characters of the
element being read. -/
def splitSlashes : List Char → List Char → List (List Char)
  | [], cur => [cur.reverse]
  | c :: cs, cur =>
    if c = '/' then cur.reverse :: splitSlashes cs [] else splitSlashes cs (c :: cur)

/-- The elements of a path text. -/
def pathElements (s : String) : List String :=
  (splitSlashes s.data []).map String.mk

/-- One element of a path applied to the directories walked so far (innermost first): an
empty element and `.` stay, `..` goes up, also out of the start of a relative path, any
other name goes down. -/
def cleanStep (rooted : Bool) (stack : List String) (e : String) : List String :=
  if e = "" ∨ e = "." then stack
  else if e = ".." then
    match stack with
    | [] => if rooted then [] else [".."]
    | top :: rest => if top = ".." then ".." :: top :: rest else rest
  else e :: stack

/-- The directory a path text names, read lexically: whether it starts at the root, and the
names walked down from there (or from the working directory). Two texts with the same
value name the same directory; symbolic links are not modelled. -/
def resolvedDir (s : String) : Bool × List String :=
  (decide (s.data.head? = some '/'),
    ((pathElements s).foldl (cleanStep (decide (s.data.head? = some '/'))) []).reverse)

/-- A plain path element: not empty, not `.` or `..`, without a slash. -/
def PlainElement (e : String) : Prop :=
  e ≠ "" ∧ e ≠ "." ∧ e ≠ ".." ∧ '/' ∉ e.data

instance : DecidablePred PlainElement := fun e =>
  inferInstanceAs (Decidable (e ≠ "" ∧ e ≠ "." ∧ e ≠ ".." ∧ '/' ∉ e.data))

/-- The text begins with `--backup-dir=`. -/
def beginsWithBackupDir (s : String) : Prop :=
  "--backup-dir=".data <+: s.data

instance : DecidablePred beginsWithBackupDir := fun s =>
  inferInstanceAs (Decidable ("--backup-dir=".data <+: s.data))

/-- Every `bandwidth_limit` is absent or an integer and every `login_user` is absent or a
string. -/
def OptionalsTyped (config : Config) : Bool :=
  config.Hosts.all fun h =>
    h.Login_user.isOptString && h.Dirs.all fun d => d.Bandwidth_limit.isOptInt

/-- The resolved path list of `main`: `validatePaths(getPaths(config), &config)`, with the
configuration as `validatePaths` leaves it. -/
def resolvePaths (config : Config) : Except Failure (List Path × Config) :=
  match getPaths config with
  | .error e => .error e
  | .ok paths => validatePaths paths config

/-- The text ends in a slash. -/
def endsInSlash (s : String) : Prop :=
  s.data.getLast? = some '/'

instance : DecidablePred endsInSlash := fun s =>
  inferInstanceAs (Decidable (s.data.getLast? = some '/'))

/-- The text ends in two slashes. -/
def endsInTwoSlashes (s : String) : Prop :=
  s.data.dropLast.getLast? = some '/' ∧ s.data.getLast? = some '/'

instance : DecidablePred endsInTwoSlashes := fun s =>
  inferInstanceAs (Decidable (s.data.dropLast.getLast? = some '/' ∧ s.data.getLast? = some '/'))

/-- An integer key, when it is an `int`, is at least `k`. -/
def Value.intAtLeast (k : Int) : Value → Bool
  | .int n => decide (k ≤ n)
  | _ => true

/-- No configured `retention_days` is negative and no configured `concurrent_rsync` or
`limit_concurrent_rsync` is below 1. -/
def ValuesInRange (config : Config) : Bool :=
  config.Retention_days.intAtLeast 0 && config.Concurrent_rsync.intAtLeast 1
    && config.Hosts.all fun h =>
      h.Retention_days.intAtLeast 0 && h.Limit_concurrent_rsync.intAtLeast 1
        && h.Dirs.all fun d => d.Retention_days.intAtLeast 0

/-- A sequence of host names in which two equal neighbours are followed only by that same
name. -/
def RunTail : List String → Prop
  | [] => True
  | a :: l => (l.head? = some a → ∀ c ∈ l, c = a) ∧ RunTail l

/-- What the grouping loop has built after reading a list of paths. -/
structure Grouped (m : HostMap) (paths : List Path) : Prop where
  queue : ∀ h, m.get h = paths.filter fun p => p.host = h
  nodup : m.keys.Nodup
  keys : ∀ h, h ∈ m.keys ↔ h ∈ paths.map (·.host)

/-! ## Sample configurations -/

/-- Two hosts; `db` sets its retention to an explicit 0 and a limit of 10, `web` a limit of 2;
no global `retention_days` or `concurrent_rsync`. -/
def sampleConfig : Config :=
  { Root_dir := Value.str "/backup/", Concurrent_rsync := Value.nil, Retention_days := Value.nil,
    Hosts := [
      { Name := "db", Limit_concurrent_rsync := Value.int 10, Retention_days := Value.int 0,
        Login_user := Value.str "backup",
        Dirs := [
          { Path := "/var/lib/", Retention_days := Value.nil, Bandwidth_limit := Value.nil },
          { Path := "", Retention_days := Value.nil, Bandwidth_limit := Value.nil },
          { Path := "/etc", Retention_days := Value.int 30, Bandwidth_limit := Value.int 500 }] },
      { Name := "web", Limit_concurrent_rsync := Value.int 2, Retention_days := Value.nil,
        Login_user := Value.nil,
        Dirs := [
          { Path := "./", Retention_days := Value.nil, Bandwidth_limit := Value.nil },
          { Path := "/srv", Retention_days := Value.nil, Bandwidth_limit := Value.nil }] }] }

/-- The sample configuration after `validateParams`. -/
def sampleValidated : Config :=
  { sampleConfig with Concurrent_rsync := Value.int 3, Retention_days := Value.int 7 }

/-- The resolved path list of the sample configuration. -/
def sampleResolved : List Path :=
  [{ host := "db", path := "/var/lib", retentionDays := 0, concurrentRsyncLimit := 3,
     bandwidthLimit := Value.nil, loginUser := Value.str "backup" },
   { host := "db", path := "/etc", retentionDays := 30, concurrentRsyncLimit := 3,
     bandwidthLimit := Value.int 500, loginUser := Value.str "backup" },
   { host := "web", path := "/srv", retentionDays := 7, concurrentRsyncLimit := 2,
     bandwidthLimit := Value.nil, loginUser := Value.nil }]

/-- The sample configuration as `validatePaths` leaves it. -/
def sampleNormalized : Config :=
  { sampleValidated with Root_dir := Value.str "/backup" }

/-- An entry of host `web` with the given path. -/
def webPath (path : String) : Path :=
  { host := "web", path := path, retentionDays := 7, concurrentRsyncLimit := 3,
    bandwidthLimit := Value.nil, loginUser := Value.nil }

/-- An entry of the given host and directory, with the default policy. -/
def hostPath (host path : String) : Path :=
  { host := host, path := path, retentionDays := 7, concurrentRsyncLimit := 3,
    bandwidthLimit := Value.nil, loginUser := Value.nil }

/-- The date every iteration reads in the samples: 2024-01-10. -/
def sampleClock : Nat → Date :=
  fun _ => { year := 2024, month := 1, day := 10 }

/-- The commands built for the resolved list of the sample configuration on 2024-01-10. -/
def sampleCommands : List Command :=
  [{ cmd := "rsync",
     args := ["-avHAX", "--delete", "--backup", "--backup-dir=/backup/db/lib/2024-01-10",
       "--log-file=/var/log/backup-rsync.db.log", "backup@db:/var/lib/",
       "/backup/db/lib/current/"] },
   { cmd := "rsync",
     args := ["-avHAX", "--delete", "--backup", "--backup-dir=/backup/db/etc/2024-01-10",
       "--log-file=/var/log/backup-rsync.db.log", "--bwlimit=500", "backup@db:/etc/",
       "/backup/db/etc/current/"] },
   { cmd := "rsync",
     args := ["-avHAX", "--delete", "--backup", "--backup-dir=/backup/web/srv/2024-01-10",
       "--log-file=/var/log/backup-rsync.web.log", "web:/srv/",
       "/backup/web/srv/current/"] }]

/-- Two directories of one host with the same base name. -/
def sameBasePaths : List Path :=
  [hostPath "db" "/var/log", hostPath "db" "/srv/log"]

/-- Two directories of different hosts whose base name is `..`. -/
def dotDotPaths : List Path :=
  [hostPath "db" "/srv/..", hostPath "web" "/var/.."]

/-- An entry whose host name begins like an option of the transfer tool. -/
def optionLikePath : Path :=
  hostPath "--backup-dir=x" "/srv"

/-- A validated configuration whose only directory has a `bandwidth_limit` that is a text. -/
def textLimitConfig : Config :=
  { Root_dir := Value.str "/backup", Concurrent_rsync := Value.int 3,
    Retention_days := Value.int 7,
    Hosts := [
      { Name := "web", Limit_concurrent_rsync := Value.nil, Retention_days := Value.nil,
        Login_user := Value.nil,
        Dirs := [{ Path := "/srv", Retention_days := Value.nil,
                   Bandwidth_limit := Value.str "10M" }] }] }

/-- The entry resolved from `textLimitConfig`. -/
def textLimitPath : Path :=
  { host := "web", path := "/srv", retentionDays := 7, concurrentRsyncLimit := 3,
    bandwidthLimit := Value.str "10M", loginUser := Value.nil }

/-- A disk on which the snapshot directory of `web:/srv` holds the live mirror, two dated
snapshots and a stray file, and no other directory exists. -/
def sampleDisk : String → Option (List String) :=
  fun dir =>
    if dir = "/backup/web/srv" then some ["current", "2024-01-02", "2024-01-09", "notes.txt"]
    else none

/-- A configuration with a negative `retention_days` and `concurrent_rsync: 0`. -/
def outOfRangeConfig : Config :=
  { Root_dir := Value.str "/backup", Concurrent_rsync := Value.int 0,
    Retention_days := Value.int (-1),
    Hosts := [
      { Name := "web", Limit_concurrent_rsync := Value.nil, Retention_days := Value.nil,
        Login_user := Value.nil,
        Dirs := [{ Path := "/srv", Retention_days := Value.nil, Bandwidth_limit := Value.nil }] }] }

/-- A configuration with a nameless host, the directory `/`, a directory and a `root_dir`
written with two trailing slashes. -/
def slashConfig : Config :=
  { Root_dir := Value.str "/backup//", Concurrent_rsync := Value.int 3,
    Retention_days := Value.int 7,
    Hosts := [
      { Name := "", Limit_concurrent_rsync := Value.nil, Retention_days := Value.nil,
        Login_user := Value.nil,
        Dirs := [
          { Path := "/", Retention_days := Value.nil, Bandwidth_limit := Value.nil },
          { Path := "/srv//", Retention_days := Value.nil, Bandwidth_limit := Value.nil }] }] }

/-! ## getPaths: what an entry holds -/

theorem resolveDir_ok {config : Config} {host : Host} {dir : Dir} {p : Path}
    (h : resolveDir config host dir = .ok p) :
    p.host = host.Name ∧ p.path = dir.Path ∧ p.bandwidthLimit = dir.Bandwidth_limit
      ∧ p.loginUser = host.Login_user
      ∧ resolveRetention config host dir = .ok p.retentionDays
      ∧ resolveLimit config host = .ok p.concurrentRsyncLimit := by
  unfold resolveDir at h
  cases hr : resolveRetention config host dir with
  | error e => simp [hr] at h
  | ok r =>
    cases hl : resolveLimit config host with
    | error e => simp [hr, hl] at h
    | ok l =>
      simp only [hr, hl, Except.ok.injEq] at h
      subst h
      exact ⟨rfl, rfl, rfl, rfl, rfl, rfl⟩

theorem getPathsDirs_ok (config : Config) (host : Host) :
    ∀ (dirs : List Dir) (acc ps : List Path), getPathsDirs config host dirs acc = .ok ps →
      ∃ qs, ps = acc ++ qs ∧
        List.Forall₂ (fun (hd : Host × Dir) p => resolveDir config hd.1 hd.2 = .ok p)
          ((dirs.map fun d => (host, d)).filter fun hd => decide (hd.2.Path ≠ "")) qs := by
  intro dirs
  induction dirs with
  | nil =>
    intro acc ps h
    simp only [getPathsDirs, Except.ok.injEq] at h
    exact ⟨[], by simp [h], by simp⟩
  | cons d rest ih =>
    intro acc ps h
    unfold getPathsDirs at h
    by_cases hp : d.Path = ""
    · simp only [hp, if_true] at h
      obtain ⟨qs, h1, h2⟩ := ih acc ps h
      exact ⟨qs, h1, by simpa [hp] using h2⟩
    · simp only [hp, if_false] at h
      cases hr : resolveDir config host d with
      | error e => simp [hr] at h
      | ok p =>
        simp only [hr] at h
        obtain ⟨qs, h1, h2⟩ := ih (acc ++ [p]) ps h
        refine ⟨p :: qs, by simp [h1], ?_⟩
        simp only [List.map_cons, ne_eq, hp, not_false_eq_true, decide_True, List.filter_cons_of_pos]
        exact List.Forall₂.cons hr h2

theorem getPathsHosts_ok (config : Config) :
    ∀ (hosts : List Host) (acc ps : List Path), getPathsHosts config hosts acc = .ok ps →
      ∃ qs, ps = acc ++ qs ∧
        List.Forall₂ (fun (hd : Host × Dir) p => resolveDir config hd.1 hd.2 = .ok p)
          ((hosts.flatMap fun h => h.Dirs.map fun d => (h, d)).filter
            fun hd => decide (hd.2.Path ≠ "")) qs := by
  intro hosts
  induction hosts with
  | nil =>
    intro acc ps h
    simp only [getPathsHosts, Except.ok.injEq] at h
    exact ⟨[], by simp [h], by simp⟩
  | cons host rest ih =>
    intro acc ps h
    unfold getPathsHosts at h
    cases hd : getPathsDirs config host host.Dirs acc with
    | error e => simp [hd] at h
    | ok mid =>
      simp only [hd] at h
      obtain ⟨q1, e1, f1⟩ := getPathsDirs_ok config host host.Dirs acc mid hd
      obtain ⟨q2, e2, f2⟩ := ih mid ps h
      refine ⟨q1 ++ q2, by simp [e2, e1], ?_⟩
      simp only [List.flatMap_cons, List.filter_append]
      exact List.rel_append f1 f2

/-- Every entry of `getPaths` is the resolution of one configured pair with a non-empty path,
in configuration order. -/
theorem getPaths_ok {config : Config} {ps : List Path} (h : getPaths config = .ok ps) :
    List.Forall₂ (fun (hd : Host × Dir) p => resolveDir config hd.1 hd.2 = .ok p)
      (nonEmptyDirs config) ps := by
  obtain ⟨qs, e, f⟩ := getPathsHosts_ok config config.Hosts [] ps h
  simp only [List.nil_append] at e
  subst e
  exact f


theorem getPathsDirs_total (config : Config) (host : Host) :
    ∀ (dirs : List Dir) (acc : List Path),
      (∀ d ∈ dirs, ∃ p, resolveDir config host d = .ok p) →
      ∃ ps, getPathsDirs config host dirs acc = .ok ps := by
  intro dirs
  induction dirs with
  | nil => intro acc _; exact ⟨acc, rfl⟩
  | cons d rest ih =>
    intro acc h
    unfold getPathsDirs
    by_cases hp : d.Path = ""
    · simp only [hp, if_true]
      exact ih acc fun x hx => h x (List.mem_cons_of_mem _ hx)
    · obtain ⟨p, hr⟩ := h d (List.mem_cons_self _ _)
      simp only [hp, if_false, hr]
      exact ih (acc ++ [p]) fun x hx => h x (List.mem_cons_of_mem _ hx)

theorem getPathsHosts_total (config : Config) :
    ∀ (hosts : List Host) (acc : List Path),
      (∀ h ∈ hosts, ∀ d ∈ h.Dirs, ∃ p, resolveDir config h d = .ok p) →
      ∃ ps, getPathsHosts config hosts acc = .ok ps := by
  intro hosts
  induction hosts with
  | nil => intro acc _; exact ⟨acc, rfl⟩
  | cons host rest ih =>
    intro acc h
    unfold getPathsHosts
    obtain ⟨mid, hm⟩ := getPathsDirs_total config host host.Dirs acc
      (h host (List.mem_cons_self _ _))
    simp only [hm]
    exact ih mid fun x hx => h x (List.mem_cons_of_mem _ hx)

/-- What `validateParams` leaves behind when it does not stop the run. -/
theorem validateParams_ok {config config' : Config} (h : validateParams config = .ok config') :
    config'.Root_dir = config.Root_dir ∧ config.Root_dir ≠ Value.nil
      ∧ config'.Hosts = config.Hosts
      ∧ config'.Concurrent_rsync = specGlobalLimit config
      ∧ config'.Retention_days =
          (if config.Retention_days ≠ Value.nil then config.Retention_days else Value.int 7) := by
  unfold validateParams at h
  unfold specGlobalLimit
  by_cases h1 : config.Concurrent_rsync = Value.nil <;>
    by_cases h2 : config.Retention_days = Value.nil <;>
    by_cases h3 : config.Root_dir = Value.nil <;>
    simp [h1, h2, h3, defaultConcurrentRsync, defaultRetentionDays] at h ⊢ <;>
    subst h <;> simp [h1, h2]

theorem isOptInt_cases {v : Value} (h : v.isOptInt = true) : v = Value.nil ∨ ∃ n, v = Value.int n := by
  cases v with
  | nil => exact Or.inl rfl
  | int n => exact Or.inr ⟨n, rfl⟩
  | str s => simp [Value.isOptInt] at h
  | other t => simp [Value.isOptInt] at h

theorem wellTyped_host {config : Config} (h : WellTyped config = true) {host : Host}
    (hh : host ∈ config.Hosts) :
    host.Limit_concurrent_rsync.isOptInt = true ∧ host.Retention_days.isOptInt = true
      ∧ ∀ d ∈ host.Dirs, d.Retention_days.isOptInt = true := by
  simp only [WellTyped, Bool.and_eq_true, List.all_eq_true] at h
  obtain ⟨_, hhosts⟩ := h
  obtain ⟨⟨⟨h1, h2⟩, _⟩, h3⟩ := hhosts host hh
  exact ⟨h1, h2, fun d hd => (h3 d hd).1⟩

/-- A validated, well-typed configuration makes no type assertion of `getPaths` fail. -/
theorem resolveDir_total {config config' : Config} (hv : validateParams config = .ok config')
    (ht : WellTyped config = true) {host : Host} (hh : host ∈ config.Hosts) {dir : Dir}
    (hd : dir ∈ host.Dirs) : ∃ p, resolveDir config' host dir = .ok p := by
  obtain ⟨_, _, _, hc, hr⟩ := validateParams_ok hv
  obtain ⟨hl, hhr, hdr⟩ := wellTyped_host ht hh
  have hgc : ∃ g, config'.Concurrent_rsync = Value.int g := by
    have : config.Concurrent_rsync.isOptInt = true := by
      simp only [WellTyped, Bool.and_eq_true] at ht
      exact ht.1.1.2
    rcases isOptInt_cases this with h0 | ⟨n, hn⟩
    · exact ⟨3, by simp [hc, specGlobalLimit, h0]⟩
    · exact ⟨n, by simp [hc, specGlobalLimit, hn]⟩
  have hgr : ∃ g, config'.Retention_days = Value.int g := by
    have : config.Retention_days.isOptInt = true := by
      simp only [WellTyped, Bool.and_eq_true] at ht
      exact ht.1.2
    rcases isOptInt_cases this with h0 | ⟨n, hn⟩
    · exact ⟨7, by simp [hr, h0]⟩
    · exact ⟨n, by simp [hr, hn]⟩
  obtain ⟨gc, hgc⟩ := hgc
  obtain ⟨gr, hgr⟩ := hgr
  have h1 : ∃ r, resolveRetention config' host dir = .ok r := by
    unfold resolveRetention
    rcases isOptInt_cases (hdr dir hd) with h0 | ⟨n, hn⟩
    · rcases isOptInt_cases hhr with h0' | ⟨n', hn'⟩
      · exact ⟨gr, by simp [h0, h0', hgr, assertInt]⟩
      · exact ⟨n', by simp [h0, hn', assertInt]⟩
    · exact ⟨n, by simp [hn, assertInt]⟩
  have h2 : ∃ l, resolveLimit config' host = .ok l := by
    unfold resolveLimit
    rcases isOptInt_cases hl with h0 | ⟨n, hn⟩
    · exact ⟨gc, by simp [h0, hgc, assertInt]⟩
    · by_cases hlt : n > gc
      · exact ⟨gc, by simp [hn, hgc, assertInt, hlt]⟩
      · exact ⟨n, by simp [hn, hgc, assertInt, hlt]⟩
  obtain ⟨r, h1⟩ := h1
  obtain ⟨l, h2⟩ := h2
  unfold resolveDir
  rw [h1, h2]
  exact ⟨_, rfl⟩

/-- On a validated, well-typed configuration `getPaths` returns a list. -/
theorem getPaths_total {config config' : Config} (hv : validateParams config = .ok config')
    (ht : WellTyped config = true) : ∃ ps, getPaths config' = .ok ps := by
  have hH := (validateParams_ok hv).2.2.1
  unfold getPaths
  apply getPathsHosts_total
  intro h hh d hd
  rw [hH] at hh
  exact resolveDir_total hv ht hh hd

theorem nonEmptyDirs_validated {config config' : Config}
    (hv : validateParams config = .ok config') : nonEmptyDirs config' = nonEmptyDirs config := by
  simp [nonEmptyDirs, allDirs, (validateParams_ok hv).2.2.1]

theorem resolveRetention_spec {config config' : Config}
    (hv : validateParams config = .ok config') {host : Host} {dir : Dir} {r : Int}
    (h : resolveRetention config' host dir = .ok r) :
    Value.int r = specRetention config host dir := by
  obtain ⟨_, _, _, _, hr⟩ := validateParams_ok hv
  have key : ∀ v : Value, assertInt v = .ok r → Value.int r = v := by
    intro v hv'
    cases v <;> simp [assertInt] at hv'
    rw [hv']
  unfold resolveRetention at h
  unfold specRetention
  by_cases h1 : dir.Retention_days = Value.nil
  · by_cases h2 : host.Retention_days = Value.nil
    · simp only [h1, h2, ne_eq, not_true_eq_false, if_false] at h ⊢
      rw [key _ h, hr]
    · simp only [h1, h2, ne_eq, not_true_eq_false, not_false_eq_true, if_false, if_true] at h ⊢
      exact key _ h
  · simp only [h1, ne_eq, not_false_eq_true, if_true] at h ⊢
    exact key _ h

theorem resolveLimit_spec {config config' : Config}
    (hv : validateParams config = .ok config') {host : Host} {l : Int}
    (h : resolveLimit config' host = .ok l) :
    (host.Limit_concurrent_rsync = Value.nil → Value.int l = specGlobalLimit config) ∧
    (∀ n, host.Limit_concurrent_rsync = Value.int n →
      ∃ g, specGlobalLimit config = Value.int g ∧ l = min n g) := by
  obtain ⟨_, _, _, hc, _⟩ := validateParams_ok hv
  have key : ∀ v : Value, assertInt v = .ok l → Value.int l = v := by
    intro v hv'
    cases v <;> simp [assertInt] at hv'
    rw [hv']
  unfold resolveLimit at h
  constructor
  · intro h0
    simp only [h0, ne_eq, not_true_eq_false, if_false] at h
    rw [key _ h, hc]
  · intro n hn
    simp only [hn, ne_eq, not_false_eq_true, if_true, assertInt, reduceCtorEq] at h
    rw [← hc]
    cases hg : config'.Concurrent_rsync with
    | int g =>
      refine ⟨g, rfl, ?_⟩
      simp only [hg, assertInt] at h
      by_cases hlt : n > g
      · simp only [hlt, if_true, Except.ok.injEq] at h
        omega
      · simp only [hlt, if_false, Except.ok.injEq] at h
        omega
    | nil => simp [hg, assertInt] at h
    | str s => simp [hg, assertInt] at h
    | other t => simp [hg, assertInt] at h


/-! ## validatePaths: the two loops as a map and a filter -/

theorem dropDotPaths_eq :
    ∀ (n : Nat) (paths : List Path), n ≤ paths.length →
      dropDotPaths n paths =
        .ok ((paths.take n).filter (fun p => !matchDots p.path) ++ paths.drop n) := by
  intro n
  induction n with
  | zero => intro paths _; simp [dropDotPaths]
  | succ i ih =>
    intro paths hlen
    have hi : i < paths.length := hlen
    obtain ⟨p, hp⟩ : ∃ p, paths.get? i = some p := ⟨paths[i], by simp [hi]⟩
    have hp' : paths[i]? = some p := by simpa using hp
    have htake : paths.take (i + 1) = paths.take i ++ [p] := by
      rw [List.take_succ, hp']
      rfl
    have hd : paths.drop i = p :: paths.drop (i + 1) := by
      rw [List.drop_eq_getElem_cons hi]
      have : paths[i] = p := by
        rw [List.getElem?_eq_getElem hi] at hp'
        exact Option.some.inj hp'
      rw [this]
    unfold dropDotPaths
    rw [hp]
    by_cases hm : matchDots p.path = true
    · simp only [hm, if_true]
      rw [ih (paths.eraseIdx i) (by rw [List.length_eraseIdx]; simp [hi]; omega)]
      have e1 : (paths.eraseIdx i).take i = paths.take i := by
        rw [List.eraseIdx_eq_take_drop_succ]
        rw [List.take_append_of_le_length (by simp; omega)]
        simp [List.take_take]
      have e2 : (paths.eraseIdx i).drop i = paths.drop (i + 1) := by
        rw [List.eraseIdx_eq_take_drop_succ]
        rw [List.drop_append_of_le_length (by simp; omega)]
        have : (List.take i paths).length = i := by simp; omega
        rw [List.drop_of_length_le (by omega)]
        simp
      rw [e1, e2, htake, List.filter_append]
      simp [hm]
    · simp only [hm, if_false]
      rw [ih paths (by omega), htake, List.filter_append, hd]
      simp [hm]

/-- The function `validatePaths` never reads outside the slice; it strips the slash of
`root_dir` and of every path and keeps the entries whose path is not `.` or `..`. -/
theorem validatePaths_eq (paths : List Path) (config : Config) :
    validatePaths paths config =
      match config.Root_dir with
      | .str root =>
        .ok ((stripPaths paths).filter (fun p => !matchDots p.path),
             { config with Root_dir := Value.str (stripTrailingSlash root) })
      | _ => .error .panic := by
  unfold validatePaths
  cases hroot : config.Root_dir with
  | str root =>
    simp only [assertString]
    rw [dropDotPaths_eq _ _ (le_refl _)]
    simp
  | nil => simp [assertString]
  | int n => simp [assertString]
  | other t => simp [assertString]

theorem validatePaths_ok {paths ps : List Path} {config config' : Config}
    (h : validatePaths paths config = .ok (ps, config')) :
    ∃ root, config.Root_dir = Value.str root
      ∧ ps = (stripPaths paths).filter (fun p => !matchDots p.path)
      ∧ config' = { config with Root_dir := Value.str (stripTrailingSlash root) } := by
  rw [validatePaths_eq] at h
  cases hroot : config.Root_dir with
  | str root =>
    simp only [hroot, Except.ok.injEq, Prod.mk.injEq] at h
    exact ⟨root, rfl, h.1.symm, by rw [← h.2]⟩
  | nil => simp [hroot] at h
  | int n => simp [hroot] at h
  | other t => simp [hroot] at h


/-! ## Trailing slashes -/

theorem strip_of_not_endsInSlash {s : String} (h : ¬ endsInSlash s) :
    stripTrailingSlash s = s := by
  unfold endsInSlash at h
  simp [stripTrailingSlash, h]

theorem strip_data_of_endsInSlash {s : String} (h : endsInSlash s) :
    (stripTrailingSlash s).data = s.data.dropLast := by
  unfold endsInSlash at h
  simp [stripTrailingSlash, h]

/-- After the replacement a slash is left at the end only if there were two. -/
theorem endsInTwoSlashes_of_strip {s : String} (h : endsInSlash (stripTrailingSlash s)) :
    endsInTwoSlashes s := by
  by_cases hs : endsInSlash s
  · refine ⟨?_, hs⟩
    rw [← strip_data_of_endsInSlash hs]
    exact h
  · rw [strip_of_not_endsInSlash hs] at h
    exact absurd h hs

theorem strip_idem {s : String} (h : ¬ endsInTwoSlashes s) :
    stripTrailingSlash (stripTrailingSlash s) = stripTrailingSlash s :=
  strip_of_not_endsInSlash fun h' => h (endsInTwoSlashes_of_strip h')

/-- The replacement empties only the empty text and the text `/`. -/
theorem strip_ne_empty {s : String} (h0 : s ≠ "") (h1 : s ≠ "/") : stripTrailingSlash s ≠ "" := by
  intro h
  by_cases hs : endsInSlash s
  · have hd := strip_data_of_endsInSlash hs
    rw [h] at hd
    apply h1
    apply String.ext
    unfold endsInSlash at hs
    have hne : s.data ≠ [] := by
      intro he
      rw [he] at hs
      simp at hs
    have := List.dropLast_append_getLast hne
    rw [← hd] at this
    rw [List.getLast?_eq_getLast _ hne] at hs
    have hl : s.data.getLast hne = '/' := Option.some.inj hs
    rw [hl] at this
    rw [← this]
    rfl
  · rw [strip_of_not_endsInSlash hs] at h
    exact h0 h


/-! ## Claims about configuration resolution -/

/-- C1: for a configuration that passed `validateParams`, the entries of `getPaths` are, in
configuration order, those of the (host, directory) pairs with a non-empty path, and the
`retentionDays` of each is the directory's `retention_days` if it is set (an explicit 0
included), else the host's if it is set, else the global one if it was set, else 7. On a
configuration whose keys have the documented types `getPaths` does return its list. -/
theorem getPaths_retentionDays (config config' : Config)
    (hv : validateParams config = .ok config') :
    (∀ ps, getPaths config' = .ok ps →
      List.Forall₂
        (fun (hd : Host × Dir) p =>
          p.host = hd.1.Name ∧ p.path = hd.2.Path
            ∧ Value.int p.retentionDays = specRetention config hd.1 hd.2)
        (nonEmptyDirs config) ps)
    ∧ (WellTyped config = true → ∃ ps, getPaths config' = .ok ps) := by
  refine ⟨fun ps h => ?_, fun ht => getPaths_total hv ht⟩
  have h2 := getPaths_ok h
  rw [nonEmptyDirs_validated hv] at h2
  refine List.Forall₂.imp ?_ h2
  intro hd p hp
  obtain ⟨e1, e2, _, _, e5, _⟩ := resolveDir_ok hp
  exact ⟨e1, e2, resolveRetention_spec hv e5⟩

theorem getPaths_retentionDays_witness :
    validateParams sampleConfig = .ok sampleValidated
    ∧ (getPaths sampleValidated).map (List.map fun p => (p.host, p.path, p.retentionDays))
        = .ok [("db", "/var/lib/", 0), ("db", "/etc", 30), ("web", "./", 7), ("web", "/srv", 7)]
    ∧ ((∀ ps, getPaths sampleValidated = .ok ps →
        List.Forall₂
          (fun (hd : Host × Dir) p =>
            p.host = hd.1.Name ∧ p.path = hd.2.Path
              ∧ Value.int p.retentionDays = specRetention sampleConfig hd.1 hd.2)
          (nonEmptyDirs sampleConfig) ps)
      ∧ (WellTyped sampleConfig = true → ∃ ps, getPaths sampleValidated = .ok ps)) :=
  ⟨by decide, by decide, getPaths_retentionDays sampleConfig sampleValidated (by decide)⟩

/-- C6: for a configuration that passed `validateParams`, every entry `getPaths` makes for a
host has `concurrentRsyncLimit` equal to the minimum of the host's `limit_concurrent_rsync`
and the global `concurrent_rsync` when the host sets a limit, and to the global
`concurrent_rsync` (3 when it was not set) otherwise. -/
theorem getPaths_concurrentRsyncLimit (config config' : Config)
    (hv : validateParams config = .ok config') :
    (∀ ps, getPaths config' = .ok ps →
      List.Forall₂
        (fun (hd : Host × Dir) p =>
          p.host = hd.1.Name
            ∧ (hd.1.Limit_concurrent_rsync = Value.nil →
                Value.int p.concurrentRsyncLimit = specGlobalLimit config)
            ∧ (∀ n, hd.1.Limit_concurrent_rsync = Value.int n →
                ∃ g, specGlobalLimit config = Value.int g ∧ p.concurrentRsyncLimit = min n g))
        (nonEmptyDirs config) ps)
    ∧ (WellTyped config = true → ∃ ps, getPaths config' = .ok ps) := by
  refine ⟨fun ps h => ?_, fun ht => getPaths_total hv ht⟩
  have h2 := getPaths_ok h
  rw [nonEmptyDirs_validated hv] at h2
  refine List.Forall₂.imp ?_ h2
  intro hd p hp
  obtain ⟨e1, _, _, _, _, e6⟩ := resolveDir_ok hp
  exact ⟨e1, resolveLimit_spec hv e6⟩

theorem getPaths_concurrentRsyncLimit_witness :
    validateParams sampleConfig = .ok sampleValidated
    ∧ (getPaths sampleValidated).map (List.map fun p => (p.host, p.concurrentRsyncLimit))
        = .ok [("db", 3), ("db", 3), ("web", 2), ("web", 2)]
    ∧ ((∀ ps, getPaths sampleValidated = .ok ps →
        List.Forall₂
          (fun (hd : Host × Dir) p =>
            p.host = hd.1.Name
              ∧ (hd.1.Limit_concurrent_rsync = Value.nil →
                  Value.int p.concurrentRsyncLimit = specGlobalLimit sampleConfig)
              ∧ (∀ n, hd.1.Limit_concurrent_rsync = Value.int n →
                  ∃ g, specGlobalLimit sampleConfig = Value.int g
                    ∧ p.concurrentRsyncLimit = min n g))
          (nonEmptyDirs sampleConfig) ps)
      ∧ (WellTyped sampleConfig = true → ∃ ps, getPaths sampleValidated = .ok ps)) :=
  ⟨by decide, by decide, getPaths_concurrentRsyncLimit sampleConfig sampleValidated (by decide)⟩


/-! ## Claims about the resolved path list -/

/-- The entries of the resolved list, in order, against the pairs they come from. -/
theorem resolvePaths_ok {config config' : Config} {ps : List Path}
    (h : resolvePaths config = .ok (ps, config')) :
    List.Forall₂
      (fun (hd : Host × Dir) p =>
        p.host = hd.1.Name ∧ p.path = stripTrailingSlash hd.2.Path
          ∧ p.bandwidthLimit = hd.2.Bandwidth_limit ∧ p.loginUser = hd.1.Login_user
          ∧ resolveRetention config hd.1 hd.2 = .ok p.retentionDays
          ∧ resolveLimit config hd.1 = .ok p.concurrentRsyncLimit)
      (keptDirs config) ps
    ∧ ∃ root, config.Root_dir = Value.str root
        ∧ config' = { config with Root_dir := Value.str (stripTrailingSlash root) } := by
  unfold resolvePaths at h
  cases hg : getPaths config with
  | error e => simp [hg] at h
  | ok qs =>
    simp only [hg] at h
    obtain ⟨root, hroot, hps, hc⟩ := validatePaths_ok h
    refine ⟨?_, root, hroot, hc⟩
    have hq := getPaths_ok hg
    subst hps
    have key : ∀ (l : List (Host × Dir)) (qs : List Path),
        List.Forall₂ (fun (hd : Host × Dir) p => resolveDir config hd.1 hd.2 = .ok p) l qs →
        List.Forall₂
          (fun (hd : Host × Dir) p =>
            p.host = hd.1.Name ∧ p.path = stripTrailingSlash hd.2.Path
              ∧ p.bandwidthLimit = hd.2.Bandwidth_limit ∧ p.loginUser = hd.1.Login_user
              ∧ resolveRetention config hd.1 hd.2 = .ok p.retentionDays
              ∧ resolveLimit config hd.1 = .ok p.concurrentRsyncLimit)
          (l.filter fun hd => !matchDots (stripTrailingSlash hd.2.Path))
          ((stripPaths qs).filter fun p => !matchDots p.path) := by
      intro l qs hf
      induction hf with
      | nil => simp [stripPaths]
      | @cons hd p l qs hr _ ih =>
        obtain ⟨e1, e2, e3, e4, e5, e6⟩ := resolveDir_ok hr
        simp only [stripPaths, List.map_cons] at ih ⊢
        by_cases hm : matchDots (stripTrailingSlash hd.2.Path) = true
        · simpa [List.filter_cons, hm, e2] using ih
        · simp only [List.filter_cons, hm, e2, Bool.not_eq_true] at ih ⊢
          simp only [Bool.not_eq_true] at hm
          simp only [hm, Bool.not_false, if_true]
          exact List.Forall₂.cons ⟨e1, rfl, e3, e4, e5, e6⟩ ih
    have := key _ _ hq
    unfold keptDirs
    unfold nonEmptyDirs at this
    rw [List.filter_filter] at this
    have hfun : (fun (hd : Host × Dir) =>
        decide (hd.2.Path ≠ "") && !matchDots (stripTrailingSlash hd.2.Path))
        = fun a => (!matchDots (stripTrailingSlash a.2.Path)) && decide (a.2.Path ≠ "") := by
      funext a
      exact Bool.and_comm _ _
    rw [hfun]
    exact this

/-- With a string `root_dir`, on a validated and well-typed configuration, the resolved list
is produced. -/
theorem resolvePaths_total {config config' : Config} (hv : validateParams config = .ok config')
    (ht : WellTyped config = true) : ∃ ps config'', resolvePaths config' = .ok (ps, config'') := by
  obtain ⟨ps, hps⟩ := getPaths_total hv ht
  obtain ⟨hr, hne, _⟩ := validateParams_ok hv
  have hstr : ∃ root, config'.Root_dir = Value.str root := by
    rw [hr]
    have : config.Root_dir.isOptString = true := by
      simp only [WellTyped, Bool.and_eq_true] at ht
      exact ht.1.1.1
    cases hc : config.Root_dir with
    | nil => exact absurd hc hne
    | str s => exact ⟨s, rfl⟩
    | int n => simp [hc, Value.isOptString] at this
    | other t => simp [hc, Value.isOptString] at this
  obtain ⟨root, hroot⟩ := hstr
  unfold resolvePaths
  rw [hps]
  show ∃ qs config'', validatePaths ps config' = .ok (qs, config'')
  rw [validatePaths_eq, hroot]
  exact ⟨_, _, rfl⟩


/-- C7: for every configuration, the list `validatePaths(getPaths(config))`, when the run
gets that far, is exactly the configured (host, directory) pairs in configuration order,
with the path normalized, minus the directories with an empty path and those whose
normalized path is `.` or `..`; a directory written `.`, `..` or with an empty path is never
among them, every other one is; and on a validated configuration whose keys have the
documented types the list is produced. -/
theorem resolvePaths_entries (config : Config) :
    (∀ ps config', resolvePaths config = .ok (ps, config') →
      List.Forall₂
        (fun (hd : Host × Dir) p =>
          p.host = hd.1.Name ∧ p.path = stripTrailingSlash hd.2.Path
            ∧ p.bandwidthLimit = hd.2.Bandwidth_limit ∧ p.loginUser = hd.1.Login_user)
        (keptDirs config) ps)
    ∧ (∀ hd ∈ allDirs config,
        hd.2.Path = "." ∨ hd.2.Path = ".." ∨ hd.2.Path = "" → hd ∉ keptDirs config)
    ∧ (∀ hd ∈ allDirs config,
        hd.2.Path ≠ "" → stripTrailingSlash hd.2.Path ≠ "." →
          stripTrailingSlash hd.2.Path ≠ ".." → hd ∈ keptDirs config)
    ∧ (∀ config₀, validateParams config₀ = .ok config → WellTyped config₀ = true →
        ∃ ps config', resolvePaths config = .ok (ps, config')) := by
  refine ⟨fun ps config' h => ?_, ?_, ?_, fun config₀ hv ht => resolvePaths_total hv ht⟩
  · refine List.Forall₂.imp ?_ (resolvePaths_ok h).1
    intro hd p hp
    exact ⟨hp.1, hp.2.1, hp.2.2.1, hp.2.2.2.1⟩
  · intro hd _ hp hk
    simp only [keptDirs, List.mem_filter, Bool.and_eq_true, decide_eq_true_eq,
      Bool.not_eq_true'] at hk
    rcases hp with hp | hp | hp
    · rw [hp] at hk
      exact absurd hk.2.2 (by decide)
    · rw [hp] at hk
      exact absurd hk.2.2 (by decide)
    · exact hk.2.1 hp
  · intro hd hmem h0 h1 h2
    simp only [keptDirs, List.mem_filter, Bool.and_eq_true, decide_eq_true_eq,
      Bool.not_eq_true']
    refine ⟨hmem, h0, ?_⟩
    simp [matchDots, h1, h2]

theorem resolvePaths_entries_witness :
    validateParams sampleConfig = .ok sampleValidated ∧ WellTyped sampleConfig = true
    ∧ (resolvePaths sampleValidated).map (fun r => r.1.map fun p => (p.host, p.path))
        = .ok [("db", "/var/lib"), ("db", "/etc"), ("web", "/srv")]
    ∧ ∃ ps config', resolvePaths sampleValidated = .ok (ps, config') :=
  ⟨by decide, by decide, by decide,
    (resolvePaths_entries sampleValidated).2.2.2 sampleConfig (by decide) (by decide)⟩

/-- C8 fails as stated: the nameless host of `slashConfig` keeps an empty host, its
directory `/` becomes an entry with an empty path, its directory `/srv//` keeps a
trailing slash, and so does the `root_dir` `/backup//`. -/
theorem resolvePaths_normalized_counterexample :
    resolvePaths slashConfig =
      .ok ([{ host := "", path := "", retentionDays := 7, concurrentRsyncLimit := 3,
              bandwidthLimit := Value.nil, loginUser := Value.nil },
            { host := "", path := "/srv/", retentionDays := 7, concurrentRsyncLimit := 3,
              bandwidthLimit := Value.nil, loginUser := Value.nil }],
           { slashConfig with Root_dir := Value.str "/backup/" })
    ∧ endsInSlash "/srv/" ∧ endsInSlash "/backup/" := by
  decide

/-- C8, amended: every entry of `validatePaths(getPaths(config))` has a non-empty host when
the name configured for its host is non-empty, a non-empty path when the path configured for
its directory is not `/`, and a path without trailing slash when the configured path does
not end in two slashes; and after `validatePaths` the `root_dir` has no trailing slash when
the configured one does not end in two slashes. -/
theorem resolvePaths_normalized (config config' : Config) (ps : List Path)
    (h : resolvePaths config = .ok (ps, config')) :
    List.Forall₂
      (fun (hd : Host × Dir) p =>
        (hd.1.Name ≠ "" → p.host ≠ "")
          ∧ (hd.2.Path ≠ "/" → p.path ≠ "")
          ∧ (¬ endsInTwoSlashes hd.2.Path → ¬ endsInSlash p.path))
      (keptDirs config) ps
    ∧ ∃ root root', config.Root_dir = Value.str root ∧ config'.Root_dir = Value.str root'
        ∧ (¬ endsInTwoSlashes root → ¬ endsInSlash root') := by
  obtain ⟨hf, root, hroot, hc⟩ := resolvePaths_ok h
  refine ⟨?_, root, stripTrailingSlash root, hroot, by rw [hc],
    fun h2 h1 => h2 (endsInTwoSlashes_of_strip h1)⟩
  have hkept : ∀ hd ∈ keptDirs config, hd.2.Path ≠ "" := by
    intro hd hk
    simp only [keptDirs, List.mem_filter, Bool.and_eq_true, decide_eq_true_eq] at hk
    exact hk.2.1
  have key : ∀ (l : List (Host × Dir)) (qs : List Path), (∀ hd ∈ l, hd.2.Path ≠ "") →
      List.Forall₂
        (fun (hd : Host × Dir) p =>
          p.host = hd.1.Name ∧ p.path = stripTrailingSlash hd.2.Path
            ∧ p.bandwidthLimit = hd.2.Bandwidth_limit ∧ p.loginUser = hd.1.Login_user
            ∧ resolveRetention config hd.1 hd.2 = .ok p.retentionDays
            ∧ resolveLimit config hd.1 = .ok p.concurrentRsyncLimit) l qs →
      List.Forall₂
        (fun (hd : Host × Dir) p =>
          (hd.1.Name ≠ "" → p.host ≠ "")
            ∧ (hd.2.Path ≠ "/" → p.path ≠ "")
            ∧ (¬ endsInTwoSlashes hd.2.Path → ¬ endsInSlash p.path)) l qs := by
    intro l qs hne hall
    induction hall with
    | nil => exact List.Forall₂.nil
    | @cons hd p l qs hp _ ih =>
      refine List.Forall₂.cons ⟨?_, ?_, ?_⟩
        (ih fun x hx => hne x (List.mem_cons_of_mem _ hx))
      · intro hn
        rw [hp.1]
        exact hn
      · intro hn
        rw [hp.2.1]
        exact strip_ne_empty (hne hd (List.mem_cons_self _ _)) hn
      · intro h2 h1
        rw [hp.2.1] at h1
        exact h2 (endsInTwoSlashes_of_strip h1)
  exact key _ _ hkept hf

theorem resolvePaths_normalized_witness :
    resolvePaths sampleValidated = .ok (sampleResolved, sampleNormalized)
    ∧ (List.Forall₂
        (fun (hd : Host × Dir) p =>
          (hd.1.Name ≠ "" → p.host ≠ "")
            ∧ (hd.2.Path ≠ "/" → p.path ≠ "")
            ∧ (¬ endsInTwoSlashes hd.2.Path → ¬ endsInSlash p.path))
        (keptDirs sampleValidated) sampleResolved
      ∧ ∃ root root', sampleValidated.Root_dir = Value.str root
          ∧ sampleNormalized.Root_dir = Value.str root'
          ∧ (¬ endsInTwoSlashes root → ¬ endsInSlash root')) :=
  ⟨by decide,
    resolvePaths_normalized sampleValidated sampleNormalized sampleResolved (by decide)⟩

/-- C9 fails as stated: a path written with two trailing slashes loses one at each
application, so the second application changes the result of the first. -/
theorem validatePaths_idempotent_counterexample :
    validatePaths [webPath "/srv//"] sampleNormalized
      = .ok ([webPath "/srv/"], sampleNormalized)
    ∧ validatePaths [webPath "/srv/"] sampleNormalized
      = .ok ([webPath "/srv"], sampleNormalized)
    ∧ [webPath "/srv"] ≠ [webPath "/srv/"] := by
  decide

/-- C9, amended: for every list of paths and every `root_dir` none of which ends in two
slashes, applying `validatePaths` to its own result gives that result again, paths and
`root_dir`; and a list in which no path ends in a slash and none is `.` or `..` is returned
unchanged. -/
theorem validatePaths_idempotent (paths : List Path) (config : Config) (root : String)
    (hroot : config.Root_dir = Value.str root) :
    ∃ ps₁ config₁, validatePaths paths config = .ok (ps₁, config₁)
      ∧ ((∀ p ∈ paths, ¬ endsInTwoSlashes p.path) → ¬ endsInTwoSlashes root →
          validatePaths ps₁ config₁ = .ok (ps₁, config₁))
      ∧ ((∀ p ∈ paths, ¬ endsInSlash p.path ∧ p.path ≠ "." ∧ p.path ≠ "..") → ps₁ = paths) := by
  refine ⟨_, _, by rw [validatePaths_eq, hroot], ?_, ?_⟩
  · intro hp hr
    rw [validatePaths_eq]
    simp only [Except.ok.injEq, Prod.mk.injEq]
    constructor
    · have hfix : stripPaths ((stripPaths paths).filter fun p => !matchDots p.path)
          = (stripPaths paths).filter fun p => !matchDots p.path := by
        unfold stripPaths
        conv_rhs => rw [← List.map_id (List.filter _ _)]
        apply List.map_congr_left
        intro q hq
        simp only [List.mem_filter, List.mem_map] at hq
        obtain ⟨⟨p, hpm, hpq⟩, _⟩ := hq
        subst hpq
        simp only [id]
        rw [strip_idem (hp p hpm)]
      rw [hfix, List.filter_filter]
      simp
    · rw [strip_idem hr]
  · intro hp
    have hstrip : stripPaths paths = paths := by
      unfold stripPaths
      conv_rhs => rw [← List.map_id paths]
      apply List.map_congr_left
      intro q hq
      simp only [id]
      rw [strip_of_not_endsInSlash (hp q hq).1]
    rw [hstrip]
    apply List.filter_eq_self.2
    intro q hq
    simp [matchDots, (hp q hq).2.1, (hp q hq).2.2]

theorem validatePaths_idempotent_witness :
    sampleValidated.Root_dir = Value.str "/backup/"
    ∧ ∃ ps₁ config₁, validatePaths [webPath "/srv/", webPath "./"] sampleValidated
        = .ok (ps₁, config₁)
      ∧ ((∀ p ∈ [webPath "/srv/", webPath "./"], ¬ endsInTwoSlashes p.path) →
          ¬ endsInTwoSlashes "/backup/" → validatePaths ps₁ config₁ = .ok (ps₁, config₁))
      ∧ ((∀ p ∈ [webPath "/srv/", webPath "./"],
            ¬ endsInSlash p.path ∧ p.path ≠ "." ∧ p.path ≠ "..") →
          ps₁ = [webPath "/srv/", webPath "./"]) :=
  ⟨by decide,
    validatePaths_idempotent [webPath "/srv/", webPath "./"] sampleValidated "/backup/"
      (by decide)⟩

/-- C10 fails as stated: `validateParams` accepts `retention_days: -1` and
`concurrent_rsync: 0`, and the entry of the resolved list carries both values. -/
theorem resolvePaths_bounds_counterexample :
    validateParams outOfRangeConfig = .ok outOfRangeConfig
    ∧ resolvePaths outOfRangeConfig =
        .ok ([{ host := "web", path := "/srv", retentionDays := -1, concurrentRsyncLimit := 0,
                bandwidthLimit := Value.nil, loginUser := Value.nil }], outOfRangeConfig)
    ∧ ¬ ((0 : Int) ≤ -1 ∧ (1 : Int) ≤ 0) := by
  decide

theorem intAtLeast_of_eq {k n : Int} {v : Value} (h : v.intAtLeast k = true)
    (e : Value.int n = v) : k ≤ n := by
  subst e
  simpa [Value.intAtLeast] using h

/-- C10, amended: for a configuration that passes `validateParams` and in which no
`retention_days` is negative and no `concurrent_rsync` or `limit_concurrent_rsync` is below
1, every entry of the resolved path list has `retentionDays >= 0` and
`concurrentRsyncLimit >= 1` (the values are carried over as configured, without a check). -/
theorem resolvePaths_bounds (config config' config'' : Config) (ps : List Path)
    (hv : validateParams config = .ok config') (hr : ValuesInRange config = true)
    (h : resolvePaths config' = .ok (ps, config'')) :
    ∀ p ∈ ps, 0 ≤ p.retentionDays ∧ 1 ≤ p.concurrentRsyncLimit := by
  have hH := (validateParams_ok hv).2.2.1
  have hf := (resolvePaths_ok h).1
  simp only [ValuesInRange, Bool.and_eq_true, List.all_eq_true] at hr
  obtain ⟨⟨hgr, hgc⟩, hhosts⟩ := hr
  have hkept : ∀ hd ∈ keptDirs config', hd.1 ∈ config.Hosts ∧ hd.2 ∈ hd.1.Dirs := by
    intro hd hk
    simp only [keptDirs, allDirs, hH, List.mem_filter, List.mem_flatMap, List.mem_map] at hk
    obtain ⟨⟨host, hh, d, hd', e⟩, _⟩ := hk
    subst e
    exact ⟨hh, hd'⟩
  intro p hp
  obtain ⟨hd, hk, hrel⟩ : ∃ hd ∈ keptDirs config',
      resolveRetention config' hd.1 hd.2 = .ok p.retentionDays
        ∧ resolveLimit config' hd.1 = .ok p.concurrentRsyncLimit := by
    have key : ∀ (l : List (Host × Dir)) (qs : List Path),
        List.Forall₂
          (fun (hd : Host × Dir) q =>
            q.host = hd.1.Name ∧ q.path = stripTrailingSlash hd.2.Path
              ∧ q.bandwidthLimit = hd.2.Bandwidth_limit ∧ q.loginUser = hd.1.Login_user
              ∧ resolveRetention config' hd.1 hd.2 = .ok q.retentionDays
              ∧ resolveLimit config' hd.1 = .ok q.concurrentRsyncLimit) l qs →
        p ∈ qs → ∃ hd ∈ l, resolveRetention config' hd.1 hd.2 = .ok p.retentionDays
          ∧ resolveLimit config' hd.1 = .ok p.concurrentRsyncLimit := by
      intro l qs hall
      induction hall with
      | nil => intro hmem; simp at hmem
      | @cons hd q l qs hq _ ih =>
        intro hmem
        rcases List.mem_cons.1 hmem with e | hmem'
        · subst e
          exact ⟨hd, List.mem_cons_self _ _, hq.2.2.2.2.1, hq.2.2.2.2.2⟩
        · obtain ⟨x, hx, hx'⟩ := ih hmem'
          exact ⟨x, List.mem_cons_of_mem _ hx, hx'⟩
    exact key _ _ hf hp
  obtain ⟨hhost, hdir⟩ := hkept hd hk
  obtain ⟨⟨hhr, hhl⟩, hdirs⟩ := hhosts hd.1 hhost
  have hdr := hdirs hd.2 hdir
  constructor
  · have hs := resolveRetention_spec hv hrel.1
    unfold specRetention at hs
    by_cases h1 : hd.2.Retention_days = Value.nil
    · by_cases h2 : hd.1.Retention_days = Value.nil
      · by_cases h3 : config.Retention_days = Value.nil
        · simp only [h1, h2, h3, ne_eq, not_true_eq_false, if_false, Value.int.injEq] at hs
          omega
        · simp only [h1, h2, h3, ne_eq, not_true_eq_false, not_false_eq_true, if_false,
            if_true] at hs
          exact intAtLeast_of_eq hgr hs
      · simp only [h1, h2, ne_eq, not_true_eq_false, not_false_eq_true, if_false, if_true] at hs
        exact intAtLeast_of_eq hhr hs
    · simp only [h1, ne_eq, not_false_eq_true, if_true] at hs
      exact intAtLeast_of_eq hdr hs
  · obtain ⟨hnil, hint⟩ := resolveLimit_spec hv hrel.2
    have hglob : ∀ g, Value.int g = specGlobalLimit config → 1 ≤ g := by
      intro g hg
      unfold specGlobalLimit at hg
      by_cases h3 : config.Concurrent_rsync = Value.nil
      · simp only [h3, ne_eq, not_true_eq_false, if_false, Value.int.injEq] at hg
        omega
      · simp only [h3, ne_eq, not_false_eq_true, if_true] at hg
        exact intAtLeast_of_eq hgc hg
    cases hl : hd.1.Limit_concurrent_rsync with
    | nil => exact hglob _ (hnil hl)
    | int n =>
      obtain ⟨g, hg, hmin⟩ := hint n hl
      have h1 : 1 ≤ g := hglob g hg.symm
      have h2 : 1 ≤ n := intAtLeast_of_eq hhl hl.symm
      rw [hmin]
      exact le_min h2 h1
    | str s =>
      have := hrel.2
      simp [resolveLimit, hl, assertInt] at this
    | other t =>
      have := hrel.2
      simp [resolveLimit, hl, assertInt] at this

theorem resolvePaths_bounds_witness :
    validateParams sampleConfig = .ok sampleValidated ∧ ValuesInRange sampleConfig = true
    ∧ resolvePaths sampleValidated = .ok (sampleResolved, sampleNormalized)
    ∧ ∀ p ∈ sampleResolved, 0 ≤ p.retentionDays ∧ 1 ≤ p.concurrentRsyncLimit :=
  ⟨by decide, by decide, by decide,
    resolvePaths_bounds sampleConfig sampleValidated sampleNormalized sampleResolved
      (by decide) (by decide) (by decide)⟩


/-! ## The order of host names -/

theorem lexLE_total : ∀ a b : List Nat, lexLE a b = true ∨ lexLE b a = true
  | [], _ => Or.inl rfl
  | _ :: _, [] => Or.inr rfl
  | x :: xs, y :: ys => by
    rcases Nat.lt_trichotomy x y with h | h | h
    · left; simp [lexLE, h]
    · subst h
      simpa [lexLE] using lexLE_total xs ys
    · right; simp [lexLE, h]

theorem lexLE_antisymm : ∀ a b : List Nat, lexLE a b = true → lexLE b a = true → a = b
  | [], [] => fun _ _ => rfl
  | [], _ :: _ => fun _ h => by simp [lexLE] at h
  | _ :: _, [] => fun h _ => by simp [lexLE] at h
  | x :: xs, y :: ys => fun h1 h2 => by
    rcases Nat.lt_trichotomy x y with h | h | h
    · have h' : ¬ y < x := by omega
      simp [lexLE, h, h'] at h2
    · subst h
      simp only [lexLE, lt_self_iff_false, if_false] at h1 h2
      rw [lexLE_antisymm xs ys h1 h2]
    · have h' : ¬ x < y := by omega
      simp [lexLE, h, h'] at h1

theorem lexLE_trans : ∀ a b c : List Nat, lexLE a b = true → lexLE b c = true → lexLE a c = true
  | [], _, _ => fun _ _ => rfl
  | _ :: _, [], _ => fun h _ => by simp [lexLE] at h
  | _ :: _, _ :: _, [] => fun _ h => by simp [lexLE] at h
  | x :: xs, y :: ys, z :: zs => fun h1 h2 => by
    simp only [lexLE] at h1 h2 ⊢
    by_cases hxy : x < y
    · by_cases hyz : y < z
      · have : x < z := by omega
        simp [this]
      · by_cases hzy : z < y
        · simp [hyz, hzy] at h2
        · have : x < z := by omega
          simp [this]
    · by_cases hyx : y < x
      · simp [hxy, hyx] at h1
      · have hxy' : x = y := by omega
        subst hxy'
        simp only [lt_self_iff_false, if_false] at h1
        by_cases hxz : x < z
        · simp [hxz]
        · by_cases hzx : z < x
          · simp [hxz, hzx] at h2
          · simp only [hxz, hzx, if_false] at h2 ⊢
            exact lexLE_trans xs ys zs h1 h2

theorem codes_injective {a b : String}
    (h : a.data.map Char.toNat = b.data.map Char.toNat) : a = b := by
  apply String.ext
  have hinj : Function.Injective Char.toNat := by
    intro c d hcd
    rw [← Char.ofNat_toNat c, ← Char.ofNat_toNat d, hcd]
  exact List.map_injective_iff.2 hinj h

theorem hostLE_isTotal : IsTotal String hostLE := ⟨fun _ _ => lexLE_total _ _⟩

theorem hostLE_isTrans : IsTrans String hostLE := ⟨fun _ _ _ h1 h2 => lexLE_trans _ _ _ h1 h2⟩

theorem hostLE_isAntisymm : IsAntisymm String hostLE :=
  ⟨fun _ _ h1 h2 => codes_injective (lexLE_antisymm _ _ h1 h2)⟩

theorem sortStrings_sorted (l : List String) : (sortStrings l).Sorted hostLE := by
  haveI := hostLE_isTotal
  haveI := hostLE_isTrans
  exact List.sorted_insertionSort hostLE l

theorem sortStrings_perm (l : List String) : (sortStrings l).Perm l :=
  List.perm_insertionSort hostLE l

/-! ## The map from hosts to queues -/

theorem get_set_same (m : HostMap) (k : String) (q : List Path) : (m.set k q).get k = q := by
  induction m with
  | nil => simp [HostMap.set, HostMap.get]
  | cons kv rest ih =>
    obtain ⟨k', v⟩ := kv
    by_cases h : k' = k
    · simp [HostMap.set, HostMap.get, h]
    · simp [HostMap.set, HostMap.get, h, ih]

theorem get_set_other (m : HostMap) {k k' : String} (q : List Path) (hne : k' ≠ k) :
    (m.set k q).get k' = m.get k' := by
  induction m with
  | nil =>
    have : ¬ k = k' := fun e => hne e.symm
    simp [HostMap.set, HostMap.get, this]
  | cons kv rest ih =>
    obtain ⟨k'', v⟩ := kv
    by_cases h : k'' = k
    · subst h
      have : ¬ k'' = k' := fun e => hne e.symm
      simp [HostMap.set, HostMap.get, this]
    · by_cases h' : k'' = k'
      · subst h'
        simp [HostMap.set, HostMap.get, h]
      · simp [HostMap.set, HostMap.get, h, h', ih]

theorem keys_set (m : HostMap) (k : String) (q : List Path) :
    (m.set k q).keys = if k ∈ m.keys then m.keys else m.keys ++ [k] := by
  induction m with
  | nil => simp [HostMap.set, HostMap.keys]
  | cons kv rest ih =>
    obtain ⟨k', v⟩ := kv
    by_cases h : k' = k
    · subst h
      simp [HostMap.set, HostMap.keys]
    · have h' : ¬ k = k' := fun e => h e.symm
      simp only [HostMap.keys] at ih
      by_cases hm : k ∈ List.map Prod.fst rest
      · simp only [hm, if_true] at ih
        simp [HostMap.set, HostMap.keys, h, h', hm, ih]
      · simp only [hm, if_false] at ih
        simp [HostMap.set, HostMap.keys, h, h', hm, ih]

theorem grouped_step {m : HostMap} {paths : List Path} (hg : Grouped m paths) (p : Path) :
    Grouped (m.set p.host (m.get p.host ++ [p])) (paths ++ [p]) := by
  refine ⟨fun h => ?_, ?_, fun h => ?_⟩
  · by_cases e : h = p.host
    · subst e
      rw [get_set_same, hg.queue, List.filter_append]
      simp
    · rw [get_set_other _ _ e, hg.queue, List.filter_append]
      have : ¬ p.host = h := fun e' => e e'.symm
      simp [this]
  · rw [keys_set]
    by_cases hm : p.host ∈ m.keys
    · simp only [hm, if_true]
      exact hg.nodup
    · simp only [hm, if_false]
      refine List.Nodup.append hg.nodup (List.nodup_singleton _) ?_
      intro a ha hb
      rw [List.mem_singleton] at hb
      exact hm (hb ▸ ha)
  · rw [keys_set]
    by_cases hm : p.host ∈ m.keys
    · simp only [hm, if_true, List.map_append, List.mem_append, hg.keys h]
      constructor
      · exact Or.inl
      · rintro (h1 | h1)
        · exact h1
        · simp only [List.map_cons, List.map_nil, List.mem_singleton] at h1
          rw [h1]
          exact (hg.keys _).1 hm
    · simp only [hm, if_false, List.map_append, List.mem_append, hg.keys h]
      simp

theorem grouped_foldl (l : List Path) :
    ∀ (m : HostMap) (paths : List Path), Grouped m paths →
      Grouped (l.foldl (fun m p => m.set p.host (m.get p.host ++ [p])) m) (paths ++ l) := by
  induction l with
  | nil => intro m paths hg; simpa using hg
  | cons p rest ih =>
    intro m paths hg
    have := ih _ _ (grouped_step hg p)
    simpa using this

theorem grouped_groupByHost (paths : List Path) : Grouped (groupByHost paths) paths := by
  have h0 : Grouped [] [] := ⟨fun h => by simp [HostMap.get], by simp [HostMap.keys],
    fun h => by simp [HostMap.keys]⟩
  have := grouped_foldl paths [] [] h0
  simpa [groupByHost] using this

/-- The sorted keys of the grouping are the sorted distinct host names. -/
theorem sortedKeys_eq (paths : List Path) :
    sortStrings (groupByHost paths).keys = sortStrings (paths.map (·.host)).dedup := by
  have hg := grouped_groupByHost paths
  have hperm : (groupByHost paths).keys.Perm (paths.map (·.host)).dedup := by
    rw [List.perm_ext_iff_of_nodup hg.nodup (List.nodup_dedup _)]
    intro a
    rw [hg.keys a, List.mem_dedup]
  haveI := hostLE_isAntisymm
  exact List.eq_of_perm_of_sorted
    (((sortStrings_perm _).trans hperm).trans (sortStrings_perm _).symm)
    (sortStrings_sorted _) (sortStrings_sorted _)


/-! ## preparePathsOrder: the loops against the rounds of the specification -/

/-- One pass over distinct keys emits the head of every non-empty queue, in key order, and
leaves the tail of each queue. -/
theorem emitRound_spec : ∀ (ks : List String), ks.Nodup → ∀ (m : HostMap) (out : List Path),
    (emitRound ks (m, out)).2 = out ++ ks.filterMap (fun h => (m.get h).head?)
    ∧ ∀ h, (emitRound ks (m, out)).1.get h = if h ∈ ks then (m.get h).tail else m.get h := by
  intro ks
  induction ks with
  | nil => intro _ m out; simp [emitRound]
  | cons k rest ih =>
    intro hnd m out
    obtain ⟨hk, hrest⟩ := List.nodup_cons.1 hnd
    have hstep : emitRound (k :: rest) (m, out) = emitRound rest (emitHead (m, out) k) := rfl
    rw [hstep]
    cases hq : m.get k with
    | nil =>
      have he : emitHead (m, out) k = (m, out) := by simp [emitHead, hq]
      rw [he]
      obtain ⟨h1, h2⟩ := ih hrest m out
      refine ⟨by rw [h1]; simp [List.filterMap_cons, hq], fun h => ?_⟩
      rw [h2 h]
      by_cases e : h = k
      · subst e
        simp [hk, hq]
      · simp [e]
    | cons p tl =>
      have he : emitHead (m, out) k = (m.set k tl, out ++ [p]) := by simp [emitHead, hq]
      rw [he]
      obtain ⟨h1, h2⟩ := ih hrest (m.set k tl) (out ++ [p])
      have hcongr : rest.filterMap (fun h => ((m.set k tl).get h).head?)
          = rest.filterMap (fun h => (m.get h).head?) := by
        apply List.filterMap_congr
        intro h hh
        have : h ≠ k := fun e => hk (e ▸ hh)
        rw [get_set_other _ _ this]
      refine ⟨by rw [h1, hcongr]; simp [List.filterMap_cons, hq], fun h => ?_⟩
      rw [h2 h]
      by_cases e : h = k
      · subst e
        simp [hk, hq, get_set_same]
      · simp [e, get_set_other _ _ e]

/-- After `n` passes that start with every queue at position `r₀`, the output has grown by
the rounds `r₀, ..., r₀ + n - 1`. -/
theorem emitRounds_spec (ks : List String) (hnd : ks.Nodup) (q : String → List Path) :
    ∀ (n r₀ : Nat) (m : HostMap) (out : List Path),
      (∀ h ∈ ks, m.get h = (q h).drop r₀) →
      (emitRounds ks n (m, out)).2
        = out ++ (List.range' r₀ n).flatMap fun r => ks.filterMap fun h => (q h).get? r := by
  intro n
  induction n with
  | zero => intro r₀ m out _; simp [emitRounds]
  | succ n ih =>
    intro r₀ m out hm
    obtain ⟨h1, h2⟩ := emitRound_spec ks hnd m out
    have hst : emitRound ks (m, out) = ((emitRound ks (m, out)).1, (emitRound ks (m, out)).2) :=
      rfl
    unfold emitRounds
    rw [hst, ih (r₀ + 1) _ _ ?_, h1, List.range'_succ, List.flatMap_cons, List.append_assoc]
    · congr 2
      apply List.filterMap_congr
      intro h hh
      rw [hm h hh, List.head?_drop]
      simp
    · intro h hh
      rw [h2 h, if_pos hh, hm h hh, List.tail_drop]

theorem sortStrings_nodup {l : List String} (h : l.Nodup) : (sortStrings l).Nodup :=
  (sortStrings_perm l).nodup_iff.2 h

/-- The loops of `preparePathsOrder` compute the first `len(paths)` rounds. -/
theorem preparePathsOrder_eq (paths : List Path) :
    preparePathsOrder paths = specInterleave paths paths.length := by
  have hg := grouped_groupByHost paths
  unfold preparePathsOrder specInterleave
  simp only []
  rw [emitRounds_spec _ (sortStrings_nodup hg.nodup)
    (fun h => paths.filter fun p => p.host = h) paths.length 0 _ []
    (fun h _ => by rw [hg.queue h]; simp)]
  rw [List.nil_append, ← List.range_eq_range', sortedKeys_eq]
  rfl

/-- Rounds from `len(paths)` on are empty. -/
theorem specRound_eq_nil (paths : List Path) {r : Nat} (h : paths.length ≤ r) :
    specRound paths r = [] := by
  unfold specRound
  rw [List.filterMap_eq_nil_iff]
  intro a _
  rw [List.get?_eq_none]
  exact le_trans (List.length_filter_le _ _) h

theorem specInterleave_add (paths : List Path) (k : Nat) :
    specInterleave paths (paths.length + k) = specInterleave paths paths.length := by
  unfold specInterleave
  rw [List.range_add, List.flatMap_append]
  have : ((List.range k).map (paths.length + ·)).flatMap (specRound paths) = [] := by
    rw [List.flatMap_eq_nil_iff]
    intro r hr
    rw [List.mem_map] at hr
    obtain ⟨i, _, e⟩ := hr
    exact specRound_eq_nil paths (by omega)
  rw [this, List.append_nil]

/-- C3: for every list of paths, `preparePathsOrder` returns the round-robin interleaving,
the concatenation for `r = 0, 1, 2, ...` (any number of rounds from `len(paths)` on gives the
same list) of round `r`, which lists in ascending host order the `r`-th entry, in input
order, of every host with more than `r` entries; the hosts of the rounds are the host names
of the input, each once, strictly ascending. For the input A1, A2, A3, B1, C1, C2 the output
is A1, B1, C1, A2, C2, A3. -/
theorem preparePathsOrder_roundRobin :
    (∀ (paths : List Path) (k : Nat),
      preparePathsOrder paths = specInterleave paths (paths.length + k))
    ∧ (∀ paths : List Path,
        (sortStrings (paths.map (·.host)).dedup).Pairwise (fun a b => hostLE a b ∧ a ≠ b)
        ∧ ∀ h, h ∈ sortStrings (paths.map (·.host)).dedup ↔ ∃ p ∈ paths, p.host = h)
    ∧ preparePathsOrder
        [hostPath "A" "/1", hostPath "A" "/2", hostPath "A" "/3", hostPath "B" "/1",
         hostPath "C" "/1", hostPath "C" "/2"]
      = [hostPath "A" "/1", hostPath "B" "/1", hostPath "C" "/1", hostPath "A" "/2",
         hostPath "C" "/2", hostPath "A" "/3"] := by
  refine ⟨fun paths k => ?_, fun paths => ⟨?_, fun h => ?_⟩, by decide⟩
  · rw [specInterleave_add, preparePathsOrder_eq]
  · exact List.Pairwise.and (sortStrings_sorted _) (sortStrings_nodup (List.nodup_dedup _))
  · rw [(sortStrings_perm _).mem_iff, List.mem_dedup, List.mem_map]

/-! ## preparePathsOrder: equal neighbours -/

theorem hostLE_refl (a : String) : hostLE a a :=
  (lexLE_total _ _).elim id id

/-- The positional reading of `RunTail`. -/
theorem RunTail.positions : ∀ {l : List String}, RunTail l →
    ∀ (i : Nat) (a : String), l.get? i = some a → l.get? (i + 1) = some a →
      ∀ (j : Nat) (c : String), i ≤ j → l.get? j = some c → c = a := by
  intro l
  induction l with
  | nil => intro _ i a h; simp at h
  | cons x l ih =>
    intro hrt i a h0 h1 j c hij hj
    obtain ⟨hx, hl⟩ := hrt
    cases i with
    | zero =>
      simp only [List.get?_cons_zero, Option.some.injEq] at h0
      subst h0
      cases j with
      | zero =>
        simp only [List.get?_cons_zero, Option.some.injEq] at hj
        exact hj.symm
      | succ j =>
        simp only [List.get?_cons_succ] at hj h1
        have hh : l.head? = some x := by
          cases l with
          | nil => simp at h1
          | cons y l => simpa using h1
        exact hx hh c (List.get?_mem hj)
    | succ i =>
      cases j with
      | zero => omega
      | succ j =>
        simp only [List.get?_cons_succ] at h0 h1 hj
        exact ih hl i a h0 h1 j c (by omega) hj

/-- In a strictly ascending list the last element bounds every element. -/
theorem le_getLast_of_pairwise : ∀ {l : List String} {s : String},
    l.Pairwise (fun a b => hostLE a b ∧ a ≠ b) → l.getLast? = some s →
      ∀ x ∈ l, hostLE x s := by
  intro l
  induction l with
  | nil => intro s _ h; simp at h
  | cons a l ih =>
    intro s hp hlast x hx
    obtain ⟨ha, hl⟩ := List.pairwise_cons.1 hp
    cases l with
    | nil =>
      simp only [List.getLast?_singleton, Option.some.injEq] at hlast
      simp only [List.mem_singleton] at hx
      subst hlast
      subst hx
      exact hostLE_refl _
    | cons b l =>
      have hlast' : (b :: l).getLast? = some s := by
        rw [List.getLast?_cons_cons] at hlast
        exact hlast
      have hs : s ∈ b :: l := List.mem_of_getLast?_eq_some hlast'
      rcases List.mem_cons.1 hx with e | hx'
      · subst e
        exact (ha s hs).1
      · exact ih hl hlast' x hx'

/-- A strictly ascending list in front of a `RunTail` list is `RunTail` when the junction
is. -/
theorem RunTail.append : ∀ {s t : List String},
    s.Pairwise (fun a b => hostLE a b ∧ a ≠ b) → RunTail t →
      (∀ a, s.getLast? = some a → t.head? = some a → ∀ c ∈ t, c = a) → RunTail (s ++ t) := by
  intro s
  induction s with
  | nil => intro t _ ht _; simpa using ht
  | cons a s ih =>
    intro t hp ht hj
    obtain ⟨ha, hs⟩ := List.pairwise_cons.1 hp
    cases s with
    | nil =>
      refine ⟨fun hh => ?_, by simpa using ht⟩
      exact hj a (by simp) (by simpa using hh)
    | cons b s =>
      refine ⟨fun hh => ?_, ?_⟩
      · have hb : some b = some a := hh
        exact absurd (Option.some.inj hb).symm (ha b (List.mem_cons_self _ _)).2
      · apply ih hs ht
        intro x hx
        apply hj x
        rw [List.getLast?_cons_cons]
        exact hx

/-- Rounds that are strictly ascending and shrink from one to the next concatenate to a list
in which equal neighbours are followed only by the same name. -/
theorem runTail_rounds (T : Nat → List String)
    (hsorted : ∀ r, (T r).Pairwise (fun a b => hostLE a b ∧ a ≠ b))
    (hsub : ∀ r x, x ∈ T (r + 1) → x ∈ T r) :
    ∀ (n r₀ : Nat),
      RunTail ((List.range' r₀ n).flatMap T)
      ∧ (∀ b, ((List.range' r₀ n).flatMap T).head? = some b →
          ∀ x ∈ (List.range' r₀ n).flatMap T, hostLE b x)
      ∧ ∀ x ∈ (List.range' r₀ n).flatMap T, x ∈ T r₀ := by
  intro n
  induction n with
  | zero => intro r₀; simp [RunTail]
  | succ n ih =>
    intro r₀
    obtain ⟨h1, h2, h3⟩ := ih (r₀ + 1)
    rw [List.range'_succ, List.flatMap_cons]
    have hmem : ∀ x ∈ (List.range' (r₀ + 1) n).flatMap T, x ∈ T r₀ :=
      fun x hx => hsub r₀ x (h3 x hx)
    have hall : ∀ x ∈ T r₀ ++ (List.range' (r₀ + 1) n).flatMap T, x ∈ T r₀ := by
      intro x hx
      rcases List.mem_append.1 hx with h | h
      · exact h
      · exact hmem x h
    refine ⟨?_, ?_, hall⟩
    · apply RunTail.append (hsorted r₀) h1
      intro a hlast hhead c hc
      have hca : hostLE c a := le_getLast_of_pairwise (hsorted r₀) hlast c (hmem c hc)
      have hac : hostLE a c := h2 a hhead c hc
      exact hostLE_isAntisymm.antisymm _ _ hca hac
    · intro b hb x hx
      have hx' := hall x hx
      cases hT : T r₀ with
      | nil =>
        rw [hT] at hx'
        simp at hx'
      | cons a l =>
        rw [hT] at hb hx'
        simp only [List.cons_append, List.head?_cons, Option.some.injEq] at hb
        subst hb
        have hp := hsorted r₀
        rw [hT] at hp
        rcases List.mem_cons.1 hx' with e | hx''
        · rw [e]
          exact hostLE_refl _
        · exact ((List.pairwise_cons.1 hp).1 x hx'').1

/-- The hosts of a round are the sorted host names with enough entries. -/
theorem specRound_hosts (paths : List Path) (r : Nat) :
    (specRound paths r).map (·.host)
      = (sortStrings (paths.map (·.host)).dedup).filter
          fun h => decide (r < (paths.filter fun p => p.host = h).length) := by
  unfold specRound
  generalize sortStrings (paths.map (·.host)).dedup = ks
  induction ks with
  | nil => simp
  | cons k ks ih =>
    rw [List.filterMap_cons, List.filter_cons]
    cases hq : (paths.filter fun p => p.host = k).get? r with
    | none =>
      have : ¬ r < (paths.filter fun p => p.host = k).length := by
        rw [List.get?_eq_none] at hq
        omega
      simp only [this, decide_False, Bool.false_eq_true, if_false]
      exact ih
    | some p =>
      have hlt : r < (paths.filter fun p => p.host = k).length := by
        by_contra hge
        rw [(List.get?_eq_none).2 (by omega)] at hq
        exact Option.noConfusion hq
      have hp : p.host = k := by
        have := List.get?_mem hq
        simpa using (List.mem_filter.1 this).2
      simp only [hlt, decide_True, if_true, List.map_cons, hp]
      rw [ih]

theorem sortStrings_strict {l : List String} (h : l.Nodup) :
    (sortStrings l).Pairwise (fun a b => hostLE a b ∧ a ≠ b) :=
  List.Pairwise.and (sortStrings_sorted l) (sortStrings_nodup h)

/-- C2: in the output of `preparePathsOrder`, whenever the entries at positions `i` and
`i + 1` have the same host, every entry from position `i` onward has that host: two entries
of one host are adjacent only when no other host has an entry left to emit. -/
theorem preparePathsOrder_sameHost_adjacent (paths : List Path) (i : Nat) (a b : Path)
    (hi : (preparePathsOrder paths).get? i = some a)
    (hi' : (preparePathsOrder paths).get? (i + 1) = some b)
    (hab : a.host = b.host) :
    ∀ (j : Nat) (c : Path), i ≤ j → (preparePathsOrder paths).get? j = some c →
      c.host = a.host := by
  intro j c hij hj
  have hrt : RunTail ((preparePathsOrder paths).map (·.host)) := by
    rw [preparePathsOrder_eq]
    unfold specInterleave
    rw [List.map_flatMap, List.range_eq_range']
    refine (runTail_rounds (fun r => (specRound paths r).map (·.host)) ?_ ?_ _ 0).1
    · intro r
      beta_reduce
      rw [specRound_hosts]
      exact List.Pairwise.filter _ (sortStrings_strict (List.nodup_dedup _))
    · intro r x hx
      beta_reduce at hx ⊢
      rw [specRound_hosts] at hx ⊢
      rw [List.mem_filter] at hx ⊢
      refine ⟨hx.1, ?_⟩
      have := hx.2
      simp only [decide_eq_true_eq] at this ⊢
      omega
  have hmap : ∀ (k : Nat) (p : Path), (preparePathsOrder paths).get? k = some p →
      ((preparePathsOrder paths).map (·.host)).get? k = some p.host := by
    intro k p hk
    rw [List.get?_eq_getElem?] at hk ⊢
    rw [List.getElem?_map, hk]
    rfl
  exact hrt.positions i a.host (hmap i a hi) (by rw [hab]; exact hmap (i + 1) b hi')
    j c.host hij (hmap j c hj)

theorem preparePathsOrder_sameHost_adjacent_witness :
    (preparePathsOrder [hostPath "A" "/1", hostPath "B" "/1", hostPath "B" "/2",
        hostPath "B" "/3"]).get? 1 = some (hostPath "B" "/1")
    ∧ (preparePathsOrder [hostPath "A" "/1", hostPath "B" "/1", hostPath "B" "/2",
        hostPath "B" "/3"]).get? 2 = some (hostPath "B" "/2")
    ∧ ∀ (j : Nat) (c : Path), 1 ≤ j →
        (preparePathsOrder [hostPath "A" "/1", hostPath "B" "/1", hostPath "B" "/2",
          hostPath "B" "/3"]).get? j = some c → c.host = (hostPath "B" "/1").host :=
  ⟨by decide, by decide,
    preparePathsOrder_sameHost_adjacent _ 1 (hostPath "B" "/1") (hostPath "B" "/2")
      (by decide) (by decide) (by decide)⟩


/-! ## The retention sweep -/

theorem wrap64_of_range {x : Int} (h1 : -9223372036854775808 ≤ x)
    (h2 : x < 9223372036854775808) : wrap64 x = x := by
  unfold wrap64
  omega

theorem digitVal_le {c : Char} {a : Nat} (h : digitVal c = some a) : a ≤ 9 := by
  unfold digitVal at h
  split at h
  · rename_i hc
    have h9 : c.toNat ≤ '9'.toNat := hc.2
    have : '9'.toNat = 57 := rfl
    have : '0'.toNat = 48 := rfl
    simp only [Option.some.injEq] at h
    omega
  · exact Option.noConfusion h

theorem daysIn_le (month year : Nat) : daysIn month year ≤ 31 := by
  unfold daysIn
  split
  · split <;> omega
  · split <;> omega

/-- A name that parses is a date of the years 0 to 9999. -/
theorem parseDate_bounds {name : String} {y m d : Nat} (h : parseDate name = some (y, m, d)) :
    y ≤ 9999 ∧ 1 ≤ m ∧ m ≤ 12 ∧ 1 ≤ d ∧ d ≤ 31 := by
  unfold parseDate at h
  split at h
  · split at h
    · rename_i a b c e f g i j ha hb hc he hf hg hi hj
      simp only [] at h
      split at h
      · rename_i hcond
        simp only [Option.some.injEq, Prod.mk.injEq] at h
        obtain ⟨hy, hm, hd⟩ := h
        have := digitVal_le ha
        have := digitVal_le hb
        have := digitVal_le hc
        have := digitVal_le he
        have := daysIn_le (10 * f + g) (1000 * a + 100 * b + 10 * c + e)
        omega
      · exact Option.noConfusion h
    · exact Option.noConfusion h
  · exact Option.noConfusion h

theorem daysBefore_le : ∀ m, m ≤ 12 → daysBefore m ≤ 334 := by
  decide

theorem civilDay_bounds {y m d : Nat} (hy : y ≤ 9999) (hm : m ≤ 12) (hd : d ≤ 31) :
    -719528 ≤ civilDay y m d ∧ civilDay y m d ≤ 2933000 := by
  have hb := daysBefore_le m hm
  unfold civilDay daysBeforeYear
  split <;> omega

/-- The day number counts days: it is 0 on 1970-01-01. -/
theorem civilDay_epoch : civilDay 1970 1 1 = 0 := by
  decide

/-- The day number grows by one from a day to the next within a month. -/
theorem civilDay_next_day (y m d : Nat) (hd : 1 ≤ d) :
    civilDay y m (d + 1) = civilDay y m d + 1 := by
  unfold civilDay
  split <;> omega

/-- The day number grows by one from the last day of a month to the first of the next. -/
theorem civilDay_next_month (y m : Nat) (hm : 1 ≤ m ∧ m < 12) :
    civilDay y (m + 1) 1 = civilDay y m (daysIn m y) + 1 := by
  obtain ⟨h1, h2⟩ := hm
  unfold civilDay daysIn
  cases hl : isLeap y <;> interval_cases m <;> simp [daysBefore] <;> omega

/-- The day number grows by one from the 31st of December to the first of January. -/
theorem civilDay_next_year (y : Nat) : civilDay (y + 1) 1 1 = civilDay y 12 31 + 1 := by
  have h12 : daysBefore 12 = 334 := rfl
  have h1 : daysBefore 1 = 0 := rfl
  have hleap : isLeap y = true ↔ (y % 4 = 0 ∧ (y % 100 ≠ 0 ∨ y % 400 = 0)) := by
    simp [isLeap]
  unfold civilDay daysBeforeYear
  rw [h12, h1, if_neg (by omega : ¬ (isLeap (y + 1) = true ∧ 3 ≤ 1))]
  generalize hA : (y + 1 + 3) / 4 = A
  generalize hB : (y + 1 + 99) / 100 = B
  generalize hC : (y + 1 + 399) / 400 = C
  generalize hA' : (y + 3) / 4 = A'
  generalize hB' : (y + 99) / 100 = B'
  generalize hC' : (y + 399) / 400 = C'
  have e1 : A = A' + (if y % 4 = 0 then 1 else 0) := by split <;> omega
  have e2 : B = B' + (if y % 100 = 0 then 1 else 0) := by split <;> omega
  have e3 : C = C' + (if y % 400 = 0 then 1 else 0) := by split <;> omega
  have e4 : B' ≤ A' := by omega
  by_cases hl : isLeap y = true
  · rw [if_pos ⟨hl, by omega⟩]
    have := hleap.1 hl
    clear hleap hl h12 h1
    split at e1 <;> split at e2 <;> split at e3 <;> omega
  · rw [if_neg (fun h => hl h.1)]
    have : ¬ (y % 4 = 0 ∧ (y % 100 ≠ 0 ∨ y % 400 = 0)) := fun h => hl (hleap.2 h)
    clear hleap hl h12 h1
    split at e1 <;> split at e2 <;> split at e3 <;> omega

/-- The seconds the expiry test compares, when nothing wraps. -/
theorem selected_iff {now R : Int} {name : String} {y m d : Nat}
    (hparse : parseDate name = some (y, m, d))
    (hnow : -4611686018427387904 ≤ now ∧ now < 4611686018427387904)
    (hR : 0 ≤ R ∧ R * 86400 < 9223372036854775808) :
    selectedForDeletion now R name = true ↔ R * 86400 < now - civilDay y m d * 86400 := by
  obtain ⟨hy, _, hm, _, hd⟩ := parseDate_bounds hparse
  obtain ⟨c1, c2⟩ := civilDay_bounds hy hm hd
  unfold selectedForDeletion parseUnix
  rw [hparse]
  simp only [expired, decide_eq_true_eq, gt_iff_lt]
  rw [wrap64_of_range (x := R) (by omega) (by omega),
    wrap64_of_range (x := R * 86400) (by omega) (by omega),
    wrap64_of_range (x := now - civilDay y m d * 86400) (by omega) (by omega)]


/-- C4 fails as stated: at noon UTC of 2024-01-10, with `retentionDays = 0`, the snapshot
named after that very day is 43200 seconds old, which is more than 0 seconds, and is
selected for deletion. -/
theorem deleteExpiredBackups_boundary_counterexample :
    parseDate "2024-01-10" = some (2024, 1, 10)
    ∧ civilDay 2024 1 10 + 0 = dayOf 1704888000 0
    ∧ secondOfDay 1704888000 0 = 43200
    ∧ deleteExpiredBackups 1704888000 0 ["2024-01-10", "current"] = ["2024-01-10"] := by
  decide

/-- C4, amended: the age of a snapshot is counted in seconds from 00:00 UTC of the date in its
name, and the test is strictly "more than `retentionDays * 86400` seconds". So the snapshot
named after the calendar date exactly `R` days before the date of `now` is not selected for
deletion exactly when the time of day of `now` is no later than the zone offset from UTC
(in UTC: only at 00:00:00), and is selected at any later time of day, also for `R = 0` and
the snapshot of today. -/
theorem deleteExpiredBackups_boundary (now offset R : Int) (name : String) (y m d : Nat)
    (hparse : parseDate name = some (y, m, d))
    (hnow : -4611686018427387904 ≤ now ∧ now < 4611686018427387904)
    (hoff : -86400 < offset ∧ offset < 86400)
    (hR : 0 ≤ R)
    (hday : civilDay y m d + R = dayOf now offset) :
    ∀ items : List String, name ∈ items →
      (name ∉ deleteExpiredBackups now R items ↔ secondOfDay now offset ≤ offset) := by
  intro items hmem
  obtain ⟨hy, _, hm, _, hd⟩ := parseDate_bounds hparse
  obtain ⟨c1, c2⟩ := civilDay_bounds hy hm hd
  unfold dayOf at hday
  have hsel := selected_iff (R := R) hparse hnow ⟨hR, by omega⟩
  unfold deleteExpiredBackups
  rw [List.mem_filter, hsel]
  unfold secondOfDay
  constructor
  · intro h
    have : ¬ R * 86400 < now - civilDay y m d * 86400 := fun h' => h ⟨hmem, h'⟩
    omega
  · intro h h'
    have := h'.2
    omega

theorem deleteExpiredBackups_boundary_witness :
    parseDate "2024-01-03" = some (2024, 1, 3)
    ∧ civilDay 2024 1 3 + 7 = dayOf 1704844800 0
    ∧ ∀ items : List String, "2024-01-03" ∈ items →
        ("2024-01-03" ∉ deleteExpiredBackups 1704844800 7 items
          ↔ secondOfDay 1704844800 0 ≤ 0) :=
  ⟨by decide, by decide,
    deleteExpiredBackups_boundary 1704844800 0 7 "2024-01-03" 2024 1 3 (by decide)
      (by decide) (by decide) (by decide) (by decide)⟩

/-- C5: for a path with `retentionDays = R >= 0`, a snapshot directory named after a calendar
date `R + 1` days or more before the date of `now` is selected for deletion by
`deleteExpiredBackups` (the date of `now` taken in UTC or in any zone less than a day east
of it, `now` within 2^62 seconds of 1970). -/
theorem deleteExpiredBackups_expired (now offset R : Int) (name : String) (y m d : Nat)
    (hparse : parseDate name = some (y, m, d))
    (hnow : -4611686018427387904 ≤ now ∧ now < 4611686018427387904)
    (hoff : offset < 86400)
    (hR : 0 ≤ R)
    (hday : civilDay y m d + (R + 1) ≤ dayOf now offset) :
    ∀ items : List String, name ∈ items → name ∈ deleteExpiredBackups now R items := by
  intro items hmem
  obtain ⟨hy, _, hm, _, hd⟩ := parseDate_bounds hparse
  obtain ⟨c1, c2⟩ := civilDay_bounds hy hm hd
  unfold dayOf at hday
  have hsel := selected_iff (R := R) hparse hnow ⟨hR, by omega⟩
  unfold deleteExpiredBackups
  rw [List.mem_filter, hsel]
  exact ⟨hmem, by omega⟩

theorem deleteExpiredBackups_expired_witness :
    parseDate "2024-01-02" = some (2024, 1, 2)
    ∧ civilDay 2024 1 2 + (7 + 1) ≤ dayOf 1704844800 0
    ∧ deleteExpiredBackups 1704844800 7 ["2024-01-02", "2024-01-03", "current"]
        = ["2024-01-02"]
    ∧ ∀ items : List String, "2024-01-02" ∈ items →
        "2024-01-02" ∈ deleteExpiredBackups 1704844800 7 items :=
  ⟨by decide, by decide, by decide,
    deleteExpiredBackups_expired 1704844800 0 7 "2024-01-02" 2024 1 2 (by decide)
      (by decide) (by decide) (by decide) (by decide)⟩


/-! ## prepareCommands: the argument list -/

theorem isOptString_cases {v : Value} (h : v.isOptString = true) :
    v = Value.nil ∨ ∃ s, v = Value.str s := by
  cases v with
  | nil => exact Or.inl rfl
  | str s => exact Or.inr ⟨s, rfl⟩
  | int n => simp [Value.isOptString] at h
  | other t => simp [Value.isOptString] at h

/-- The command built for a path when no type assertion fails. -/
theorem prepareCommand_eq {config : Config} {root : String} (today : Date) {p : Path}
    (hroot : config.Root_dir = Value.str root) (hb : p.bandwidthLimit.isOptInt = true)
    (hl : p.loginUser.isOptString = true) :
    prepareCommand config today p =
      .ok { cmd := "rsync",
            args := ["-avHAX", "--delete", "--backup",
                "--backup-dir=" ++ specBackupDir root p today,
                "--log-file=" ++ rsyncLogFilePattern ++ "." ++ p.host ++ ".log"]
              ++ specLimitArgs p ++ [specSource p, specMirrorDir root p ++ "/"] } := by
  have e1 : "--backup-dir=" ++ root ++ "/" ++ p.host ++ "/" ++ pathBase p.path ++ "/"
      ++ formatDate today = "--backup-dir=" ++ specBackupDir root p today := by
    simp only [specBackupDir, String.append_assoc]
  have e2 : root ++ "/" ++ p.host ++ "/" ++ pathBase p.path ++ "/current/"
      = specMirrorDir root p ++ "/" := by
    simp only [specMirrorDir, String.append_assoc]
    rfl
  unfold prepareCommand
  rw [hroot]
  simp only [assertString, e1, e2]
  rcases isOptInt_cases hb with h0 | ⟨n, hn⟩ <;> rcases isOptString_cases hl with h1 | ⟨u, hu⟩
  · simp [h0, h1, specLimitArgs, specSource]
  · simp [h0, hu, specLimitArgs, specSource, assertString]
  · simp [hn, h1, specLimitArgs, specSource, assertInt]
  · simp [hn, hu, specLimitArgs, specSource, assertInt, assertString]

/-- A command is built only when every assertion of the loop body holds. -/
theorem prepareCommand_typed {config : Config} {today : Date} {p : Path} {s : Command}
    (h : prepareCommand config today p = .ok s) :
    (∃ root, config.Root_dir = Value.str root) ∧ p.bandwidthLimit.isOptInt = true
      ∧ p.loginUser.isOptString = true := by
  unfold prepareCommand at h
  cases hr : config.Root_dir <;> cases hb : p.bandwidthLimit <;> cases hl : p.loginUser <;>
    simp [hr, hb, hl, assertString, assertInt, Value.isOptInt, Value.isOptString] at h ⊢

theorem prepareCommandsFrom_ok (config : Config) (clock : Nat → Date) :
    ∀ (paths : List Path) (i : Nat) (acc cmds : List Command),
      prepareCommandsFrom config clock paths i acc = .ok cmds →
      ∃ new, cmds = acc ++ new ∧ new.length = paths.length ∧
        ∀ k p, paths.get? k = some p →
          ∃ s, new.get? k = some s ∧ prepareCommand config (clock (i + k)) p = .ok s := by
  intro paths
  induction paths with
  | nil =>
    intro i acc cmds h
    simp only [prepareCommandsFrom, Except.ok.injEq] at h
    exact ⟨[], by simp [h], rfl, fun k p hk => by simp at hk⟩
  | cons q rest ih =>
    intro i acc cmds h
    unfold prepareCommandsFrom at h
    cases hq : prepareCommand config (clock i) q with
    | error e => simp [hq] at h
    | ok s =>
      simp only [hq] at h
      obtain ⟨new, e, hlen, hget⟩ := ih (i + 1) (acc ++ [s]) cmds h
      refine ⟨s :: new, by simp [e], by simp [hlen], ?_⟩
      intro k p hk
      cases k with
      | zero =>
        simp only [List.get?_cons_zero, Option.some.injEq] at hk
        subst hk
        exact ⟨s, rfl, by simpa using hq⟩
      | succ k =>
        simp only [List.get?_cons_succ] at hk ⊢
        obtain ⟨t, ht, hc⟩ := hget k p hk
        exact ⟨t, ht, by rw [← hc]; congr 2; omega⟩

/-- The command at position `i` of the result is the one built for the path at position `i`,
with the date read in iteration `i`. -/
theorem prepareCommands_get {paths : List Path} {config : Config} {clock : Nat → Date}
    {cmds : List Command} (h : prepareCommands paths config clock = .ok cmds) :
    cmds.length = paths.length ∧
      ∀ i p, paths.get? i = some p →
        ∃ s, cmds.get? i = some s ∧ prepareCommand config (clock i) p = .ok s := by
  obtain ⟨new, e, hlen, hget⟩ := prepareCommandsFrom_ok config clock paths 0 [] cmds h
  simp only [List.nil_append] at e
  subst e
  refine ⟨hlen, fun i p hp => ?_⟩
  obtain ⟨s, hs, hc⟩ := hget i p hp
  exact ⟨s, hs, by simpa using hc⟩

theorem prepareCommandsFrom_total (config : Config) (clock : Nat → Date) :
    ∀ (paths : List Path) (i : Nat) (acc : List Command),
      (∀ p ∈ paths, ∀ d, ∃ s, prepareCommand config d p = .ok s) →
      ∃ cmds, prepareCommandsFrom config clock paths i acc = .ok cmds := by
  intro paths
  induction paths with
  | nil => intro i acc _; exact ⟨acc, rfl⟩
  | cons q rest ih =>
    intro i acc h
    obtain ⟨s, hs⟩ := h q (List.mem_cons_self _ _) (clock i)
    unfold prepareCommandsFrom
    rw [hs]
    exact ih (i + 1) (acc ++ [s]) fun p hp => h p (List.mem_cons_of_mem _ hp)

/-- With a string `root_dir`, integer bandwidth limits and string login users, the command
list is built. -/
theorem prepareCommands_total {paths : List Path} {config : Config} (clock : Nat → Date)
    {root : String} (hroot : config.Root_dir = Value.str root)
    (ht : ∀ p ∈ paths, p.bandwidthLimit.isOptInt = true ∧ p.loginUser.isOptString = true) :
    ∃ cmds, prepareCommands paths config clock = .ok cmds := by
  apply prepareCommandsFrom_total
  intro p hp d
  exact ⟨_, prepareCommand_eq d hroot (ht p hp).1 (ht p hp).2⟩


/-! ## Base names, dates and slashes -/

/-- A text is cut in one way only at its last slash. -/
theorem split_at_last_slash : ∀ (x y u v : List Char),
    x ++ '/' :: u = y ++ '/' :: v → '/' ∉ u → '/' ∉ v → x = y ∧ u = v := by
  intro x
  induction x with
  | nil =>
    intro y u v h hu hv
    cases y with
    | nil =>
      simp only [List.nil_append, List.cons.injEq, true_and] at h
      exact ⟨rfl, h⟩
    | cons c y =>
      simp only [List.nil_append, List.cons_append, List.cons.injEq] at h
      exact absurd (h.2 ▸ (by simp : '/' ∈ y ++ '/' :: v)) hu
  | cons a x ih =>
    intro y u v h hu hv
    cases y with
    | nil =>
      simp only [List.nil_append, List.cons_append, List.cons.injEq] at h
      exact absurd (h.2 ▸ (by simp : '/' ∈ x ++ '/' :: u)) hv
    | cons b y =>
      simp only [List.cons_append, List.cons.injEq] at h
      obtain ⟨e, hxy⟩ := ih y u v h.2 hu hv
      exact ⟨by rw [h.1, e], hxy⟩

/-- The result of `path.Base` is `/`, or a non-empty text without a slash. -/
theorem pathBase_cases (path : String) :
    pathBase path = "/" ∨ ((pathBase path).data ≠ [] ∧ '/' ∉ (pathBase path).data) := by
  unfold pathBase
  by_cases h0 : path = ""
  · right
    simp only [h0, if_true]
    decide
  · simp only [h0, if_false]
    by_cases h1 : afterLastSlash (trimSlashes path.data) = []
    · left
      simp [h1]
    · right
      simp only [h1, if_false]
      refine ⟨h1, ?_⟩
      intro hmem
      unfold afterLastSlash at hmem
      rw [List.mem_reverse] at hmem
      have := List.mem_takeWhile_imp hmem
      simp at this

/-- Host and base name can be read back from `host/base`. -/
theorem host_base_inj {h₁ h₂ : List Char} {b₁ b₂ : String}
    (hb₁ : b₁ = "/" ∨ (b₁.data ≠ [] ∧ '/' ∉ b₁.data))
    (hb₂ : b₂ = "/" ∨ (b₂.data ≠ [] ∧ '/' ∉ b₂.data))
    (h : h₁ ++ '/' :: b₁.data = h₂ ++ '/' :: b₂.data) : h₁ = h₂ ∧ b₁ = b₂ := by
  have hlast : ∀ (x : List Char) (b : String), b.data ≠ [] → '/' ∉ b.data →
      ∀ c, (x ++ '/' :: b.data).getLast? = some c → c ≠ '/' := by
    intro x b hne hns c hc
    have hc' : b.data.getLast? = some c := by
      cases hd : b.data with
      | nil => exact absurd hd hne
      | cons d l =>
        rw [hd] at hc
        rw [show x ++ '/' :: d :: l = (x ++ ['/']) ++ d :: l by simp,
          List.getLast?_append_cons] at hc
        exact hc
    intro e
    exact hns (e ▸ List.mem_of_getLast?_eq_some hc')
  have hslash : ∀ x : List Char, (x ++ '/' :: "/".data).getLast? = some '/' := by
    intro x
    rw [show x ++ '/' :: "/".data = (x ++ ['/']) ++ ['/'] by simp [show "/".data = ['/'] from rfl],
      List.getLast?_concat]
  rcases hb₁ with e₁ | ⟨n₁, s₁⟩ <;> rcases hb₂ with e₂ | ⟨n₂, s₂⟩
  · subst e₁
    subst e₂
    exact ⟨List.append_cancel_right h, rfl⟩
  · subst e₁
    exact absurd rfl (hlast h₂ b₂ n₂ s₂ '/' (h ▸ hslash h₁))
  · subst e₂
    exact absurd rfl (hlast h₁ b₁ n₁ s₁ '/' (h.symm ▸ hslash h₂))
  · obtain ⟨e, e'⟩ := split_at_last_slash h₁ h₂ b₁.data b₂.data h s₁ s₂
    exact ⟨e, String.ext e'⟩

theorem digitChar_ne_slash (n : Nat) : digitChar n ≠ '/' := by
  have key : ∀ k, k < 10 → Char.ofNat (48 + k) ≠ '/' := by decide
  exact key (n % 10) (Nat.mod_lt _ (by decide))

theorem decimalDigits_no_slash : ∀ (fuel n : Nat), '/' ∉ decimalDigits fuel n := by
  intro fuel
  induction fuel with
  | zero => intro n; simp [decimalDigits]
  | succ fuel ih =>
    intro n
    unfold decimalDigits
    split
    · simp only [List.mem_singleton]
      exact fun e => digitChar_ne_slash n e.symm
    · simp only [List.mem_append, List.mem_singleton, not_or]
      exact ⟨ih _, fun e => digitChar_ne_slash n e.symm⟩

theorem appendInt_no_slash (x : Int) (width : Nat) : '/' ∉ appendInt x width := by
  unfold appendInt
  simp only [List.mem_append, List.mem_replicate, not_or]
  refine ⟨⟨?_, ?_⟩, decimalDigits_no_slash _ _⟩
  · split <;> simp
  · rintro ⟨_, e⟩
    exact absurd e (by decide)

/-- A formatted date holds no slash: it is one path element. -/
theorem formatDate_no_slash (d : Date) : '/' ∉ (formatDate d).data := by
  unfold formatDate
  simp only [List.mem_append, List.mem_singleton, not_or]
  exact ⟨⟨⟨⟨appendInt_no_slash _ _, by decide⟩, appendInt_no_slash _ _⟩, by decide⟩,
    appendInt_no_slash _ _⟩

/-- A formatted date is not empty. -/
theorem formatDate_ne_empty (d : Date) : (formatDate d).data ≠ [] := by
  unfold formatDate
  simp

/-- Two dated directories are equal only for the same host and base name. -/
theorem specBackupDir_inj {root : String} {p q : Path} {d₁ d₂ : Date}
    (h : specBackupDir root p d₁ = specBackupDir root q d₂) :
    p.host = q.host ∧ pathBase p.path = pathBase q.path := by
  have h' := congrArg String.data h
  simp only [specBackupDir, String.data_append, List.append_assoc] at h'
  have h1 := List.append_cancel_left h'
  have hs : "/".data = ['/'] := rfl
  simp only [hs, List.singleton_append, List.cons_append, List.nil_append, List.cons.injEq,
    true_and] at h1
  rw [show p.host.data ++ '/' :: ((pathBase p.path).data ++ '/' :: (formatDate d₁).data)
      = (p.host.data ++ '/' :: (pathBase p.path).data) ++ '/' :: (formatDate d₁).data by simp,
    show q.host.data ++ '/' :: ((pathBase q.path).data ++ '/' :: (formatDate d₂).data)
      = (q.host.data ++ '/' :: (pathBase q.path).data) ++ '/' :: (formatDate d₂).data by simp]
    at h1
  obtain ⟨e, _⟩ := split_at_last_slash _ _ _ _ h1 (formatDate_no_slash d₁)
    (formatDate_no_slash d₂)
  obtain ⟨eh, eb⟩ := host_base_inj (pathBase_cases p.path) (pathBase_cases q.path) e
  exact ⟨String.ext eh, eb⟩

/-- Two live mirror directories are equal only for the same host and base name. -/
theorem specMirrorDir_inj {root : String} {p q : Path}
    (h : specMirrorDir root p = specMirrorDir root q) :
    p.host = q.host ∧ pathBase p.path = pathBase q.path := by
  have h' := congrArg String.data h
  simp only [specMirrorDir, String.data_append, List.append_assoc] at h'
  have h1 := List.append_cancel_left h'
  have hs : "/".data = ['/'] := rfl
  simp only [hs, List.singleton_append, List.cons_append, List.nil_append, List.cons.injEq,
    true_and] at h1
  rw [show p.host.data ++ '/' :: ((pathBase p.path).data ++ '/' :: "current".data)
      = (p.host.data ++ '/' :: (pathBase p.path).data) ++ '/' :: "current".data by simp,
    show q.host.data ++ '/' :: ((pathBase q.path).data ++ '/' :: "current".data)
      = (q.host.data ++ '/' :: (pathBase q.path).data) ++ '/' :: "current".data by simp]
    at h1
  have e := List.append_cancel_right h1
  obtain ⟨eh, eb⟩ := host_base_inj (pathBase_cases p.path) (pathBase_cases q.path) e
  exact ⟨String.ext eh, eb⟩


/-! ## Claims about the commands -/

/-- The arguments of a built command, by position. -/
theorem prepareCommand_args {config : Config} {today : Date} {p : Path} {s : Command}
    (h : prepareCommand config today p = .ok s) :
    ∃ root, config.Root_dir = Value.str root
      ∧ s.args = ["-avHAX", "--delete", "--backup",
            "--backup-dir=" ++ specBackupDir root p today,
            "--log-file=" ++ rsyncLogFilePattern ++ "." ++ p.host ++ ".log"]
          ++ specLimitArgs p ++ [specSource p, specMirrorDir root p ++ "/"]
      ∧ s.args.get? 3 = some ("--backup-dir=" ++ specBackupDir root p today)
      ∧ s.args.get? (s.args.length - 2) = some (specSource p)
      ∧ s.args.getLast? = some (specMirrorDir root p ++ "/") := by
  obtain ⟨⟨root, hroot⟩, hb, hl⟩ := prepareCommand_typed h
  rw [prepareCommand_eq today hroot hb hl] at h
  simp only [Except.ok.injEq] at h
  subst h
  refine ⟨root, hroot, rfl, rfl, ?_, ?_⟩
  · cases hbw : p.bandwidthLimit <;> simp [specLimitArgs, hbw]
  · cases hbw : p.bandwidthLimit <;> simp [specLimitArgs, hbw]

/-! ### Directories named by the destinations -/

theorem splitSlashes_append_slash : ∀ (a b cur : List Char),
    splitSlashes (a ++ '/' :: b) cur = splitSlashes a cur ++ splitSlashes b [] := by
  intro a
  induction a with
  | nil => intro b cur; simp [splitSlashes]
  | cons c a ih =>
    intro b cur
    by_cases hc : c = '/'
    · simp [splitSlashes, hc, ih]
    · simp [splitSlashes, hc, ih]

theorem splitSlashes_of_no_slash : ∀ (x cur : List Char), '/' ∉ x →
    splitSlashes x cur = [cur.reverse ++ x] := by
  intro x
  induction x with
  | nil => intro cur _; simp [splitSlashes]
  | cons c x ih =>
    intro cur h
    have hc : ¬ c = '/' := fun e => h (e ▸ List.mem_cons_self _ _)
    have hx : '/' ∉ x := fun hm => h (List.mem_cons_of_mem _ hm)
    simp [splitSlashes, hc, ih _ hx]

/-- The elements of `root/a/b/c` are those of the root and then `a`, `b`, `c`, when these
hold no slash. -/
theorem pathElements_three (root a b c : String) (ha : '/' ∉ a.data) (hb : '/' ∉ b.data)
    (hc : '/' ∉ c.data) :
    pathElements (root ++ "/" ++ a ++ "/" ++ b ++ "/" ++ c) = pathElements root ++ [a, b, c] := by
  have hs : "/".data = ['/'] := rfl
  have hd : (root ++ "/" ++ a ++ "/" ++ b ++ "/" ++ c).data
      = root.data ++ '/' :: (a.data ++ '/' :: (b.data ++ '/' :: c.data)) := by
    simp [String.data_append, hs]
  unfold pathElements
  rw [hd, splitSlashes_append_slash, splitSlashes_append_slash, splitSlashes_append_slash,
    splitSlashes_of_no_slash _ _ ha, splitSlashes_of_no_slash _ _ hb,
    splitSlashes_of_no_slash _ _ hc]
  simp

/-- The elements of `root/a/b/c/` end in an empty element. -/
theorem pathElements_three_slash (root a b c : String) (ha : '/' ∉ a.data)
    (hb : '/' ∉ b.data) (hc : '/' ∉ c.data) :
    pathElements (root ++ "/" ++ a ++ "/" ++ b ++ "/" ++ c ++ "/")
      = pathElements root ++ [a, b, c, ""] := by
  have hs : "/".data = ['/'] := rfl
  have hd : (root ++ "/" ++ a ++ "/" ++ b ++ "/" ++ c ++ "/").data
      = root.data ++ '/' :: (a.data ++ '/' :: (b.data ++ '/' :: (c.data ++ '/' :: []))) := by
    simp [String.data_append, hs]
  unfold pathElements
  rw [hd, splitSlashes_append_slash, splitSlashes_append_slash, splitSlashes_append_slash,
    splitSlashes_append_slash, splitSlashes_of_no_slash _ _ ha,
    splitSlashes_of_no_slash _ _ hb, splitSlashes_of_no_slash _ _ hc]
  simp only [splitSlashes, List.reverse_nil, List.nil_append, List.map_append, List.map_cons,
    List.map_nil, List.append_assoc, List.singleton_append]

theorem cleanStep_plain (rooted : Bool) (stack : List String) {e : String}
    (h : PlainElement e) : cleanStep rooted stack e = e :: stack := by
  obtain ⟨h0, h1, h2, _⟩ := h
  simp [cleanStep, h0, h1, h2]

theorem cleanStep_empty (rooted : Bool) (stack : List String) :
    cleanStep rooted stack "" = stack := by
  simp [cleanStep]

/-- Whether `root/...` starts at the root depends on `root` alone. -/
theorem head_root_slash (root : String) (rest : List Char) :
    (root.data ++ '/' :: rest).head? = (root ++ "/").data.head? := by
  have hs : "/".data = ['/'] := rfl
  simp only [String.data_append, hs]
  cases root.data <;> simp

/-- The date is a plain path element. -/
theorem formatDate_plain (d : Date) : PlainElement (formatDate d) := by
  have hdash : '-' ∈ (formatDate d).data := by
    unfold formatDate
    simp
  refine ⟨?_, ?_, ?_, formatDate_no_slash d⟩
  · intro e
    rw [e] at hdash
    exact absurd hdash (by decide)
  · intro e
    rw [e] at hdash
    exact absurd hdash (by decide)
  · intro e
    rw [e] at hdash
    exact absurd hdash (by decide)

/-- The dated directory, resolved: the root directory, then host, base name and date. -/
theorem resolvedDir_specBackupDir (root : String) (p : Path) (d : Date)
    (hh : PlainElement p.host) (hb : PlainElement (pathBase p.path)) :
    resolvedDir (specBackupDir root p d)
      = (decide ((root ++ "/").data.head? = some '/'),
          ((pathElements root).foldl
              (cleanStep (decide ((root ++ "/").data.head? = some '/'))) []).reverse
            ++ [p.host, pathBase p.path, formatDate d]) := by
  have hs : "/".data = ['/'] := rfl
  have hhead : (specBackupDir root p d).data.head? = (root ++ "/").data.head? := by
    rw [← head_root_slash root
      (p.host.data ++ '/' :: ((pathBase p.path).data ++ '/' :: (formatDate d).data))]
    simp [specBackupDir, String.data_append, hs]
  have hd := formatDate_plain d
  unfold resolvedDir
  rw [hhead]
  unfold specBackupDir
  rw [pathElements_three root _ _ _ hh.2.2.2 hb.2.2.2 hd.2.2.2, List.foldl_append]
  simp only [List.foldl_cons, List.foldl_nil, cleanStep_plain _ _ hh, cleanStep_plain _ _ hb,
    cleanStep_plain _ _ hd, List.reverse_cons, List.append_assoc, List.singleton_append]
  rfl

/-- The live mirror, resolved: the root directory, then host, base name and `current`. -/
theorem resolvedDir_specMirrorDir (root : String) (p : Path)
    (hh : PlainElement p.host) (hb : PlainElement (pathBase p.path)) :
    resolvedDir (specMirrorDir root p ++ "/")
      = (decide ((root ++ "/").data.head? = some '/'),
          ((pathElements root).foldl
              (cleanStep (decide ((root ++ "/").data.head? = some '/'))) []).reverse
            ++ [p.host, pathBase p.path, "current"]) := by
  have hs : "/".data = ['/'] := rfl
  have hhead : (specMirrorDir root p ++ "/").data.head? = (root ++ "/").data.head? := by
    rw [← head_root_slash root
      (p.host.data ++ '/' :: ((pathBase p.path).data ++ '/' :: ("current".data ++ ['/'])))]
    simp [specMirrorDir, String.data_append, hs]
  have hc : PlainElement "current" := by decide
  unfold resolvedDir
  rw [hhead]
  unfold specMirrorDir
  rw [pathElements_three_slash root _ _ _ hh.2.2.2 hb.2.2.2 hc.2.2.2, List.foldl_append]
  simp only [List.foldl_cons, List.foldl_nil, cleanStep_plain _ _ hh, cleanStep_plain _ _ hb,
    cleanStep_plain _ _ hc, cleanStep_empty, List.reverse_cons, List.append_assoc,
    List.singleton_append]
  rfl

/-- C11 fails as stated: two directories of one host that share their base name, here
`/var/log` and `/srv/log` of `db`, get the same `--backup-dir` and the same live mirror;
and two directories whose base name is `..`, here `/srv/..` of `db` and `/var/..` of `web`,
pass `validatePaths` and get destinations that are written differently and are the same
directories, `/backup/<date>` and `/backup/current`. -/
theorem prepareCommands_partition_counterexample :
    prepareCommands sameBasePaths sampleNormalized sampleClock =
      .ok [{ cmd := "rsync",
             args := ["-avHAX", "--delete", "--backup", "--backup-dir=/backup/db/log/2024-01-10",
               "--log-file=/var/log/backup-rsync.db.log", "db:/var/log/",
               "/backup/db/log/current/"] },
           { cmd := "rsync",
             args := ["-avHAX", "--delete", "--backup", "--backup-dir=/backup/db/log/2024-01-10",
               "--log-file=/var/log/backup-rsync.db.log", "db:/srv/log/",
               "/backup/db/log/current/"] }]
    ∧ (hostPath "db" "/var/log").path ≠ (hostPath "db" "/srv/log").path
    ∧ validatePaths dotDotPaths sampleNormalized = .ok (dotDotPaths, sampleNormalized)
    ∧ prepareCommands dotDotPaths sampleNormalized sampleClock =
      .ok [{ cmd := "rsync",
             args := ["-avHAX", "--delete", "--backup", "--backup-dir=/backup/db/../2024-01-10",
               "--log-file=/var/log/backup-rsync.db.log", "db:/srv/../",
               "/backup/db/../current/"] },
           { cmd := "rsync",
             args := ["-avHAX", "--delete", "--backup", "--backup-dir=/backup/web/../2024-01-10",
               "--log-file=/var/log/backup-rsync.web.log", "web:/var/../",
               "/backup/web/../current/"] }]
    ∧ (hostPath "db" "/srv/..").host ≠ (hostPath "web" "/var/..").host
    ∧ resolvedDir "/backup/db/../2024-01-10" = resolvedDir "/backup/web/../2024-01-10"
    ∧ resolvedDir "/backup/db/../current/" = resolvedDir "/backup/web/../current/" := by
  decide

/-- C11, amended: destinations are partitioned by host and base name of the directory. For
every two entries that differ in host or in the base name of their path, the commands
`prepareCommands` builds for them have `--backup-dir` and live mirror arguments that are
written differently; and when the two host names and the two base names are plain path
elements (not empty, not `.` or `..`, without a slash), these arguments name different
directories: resolved lexically (empty elements and `.` dropped, `..` going up), the two
`--backup-dir` directories differ and the two live mirror directories differ. -/
theorem prepareCommands_partition (paths : List Path) (config : Config) (clock : Nat → Date)
    (cmds : List Command) (i j : Nat) (p q : Path) (s t : Command)
    (h : prepareCommands paths config clock = .ok cmds)
    (hp : paths.get? i = some p) (hq : paths.get? j = some q)
    (hs : cmds.get? i = some s) (ht : cmds.get? j = some t)
    (hne : p.host ≠ q.host ∨ pathBase p.path ≠ pathBase q.path) :
    s.args.get? 3 ≠ t.args.get? 3 ∧ s.args.getLast? ≠ t.args.getLast?
    ∧ (PlainElement p.host → PlainElement q.host → PlainElement (pathBase p.path) →
        PlainElement (pathBase q.path) →
        ∃ root, config.Root_dir = Value.str root
          ∧ s.args.get? 3 = some ("--backup-dir=" ++ specBackupDir root p (clock i))
          ∧ t.args.get? 3 = some ("--backup-dir=" ++ specBackupDir root q (clock j))
          ∧ resolvedDir (specBackupDir root p (clock i))
              ≠ resolvedDir (specBackupDir root q (clock j))
          ∧ s.args.getLast? = some (specMirrorDir root p ++ "/")
          ∧ t.args.getLast? = some (specMirrorDir root q ++ "/")
          ∧ resolvedDir (specMirrorDir root p ++ "/")
              ≠ resolvedDir (specMirrorDir root q ++ "/")) := by
  obtain ⟨_, hget⟩ := prepareCommands_get h
  obtain ⟨s', hs', hcs⟩ := hget i p hp
  obtain ⟨t', ht', hct⟩ := hget j q hq
  rw [hs] at hs'
  rw [ht] at ht'
  obtain rfl := Option.some.inj hs'
  obtain rfl := Option.some.inj ht'
  obtain ⟨r₁, hr₁, _, a₁, _, l₁⟩ := prepareCommand_args hcs
  obtain ⟨r₂, hr₂, _, a₂, _, l₂⟩ := prepareCommand_args hct
  have hr₁' := hr₁
  rw [hr₁] at hr₂
  obtain rfl := Value.str.inj hr₂
  have hcontra : ¬ (p.host = q.host ∧ pathBase p.path = pathBase q.path) := by
    intro hc
    rcases hne with h1 | h1
    · exact h1 hc.1
    · exact h1 hc.2
  refine ⟨?_, ?_, ?_⟩
  · rw [a₁, a₂]
    intro e
    have e' := congrArg String.data (Option.some.inj e)
    simp only [String.data_append] at e'
    exact hcontra (specBackupDir_inj (String.ext (List.append_cancel_left e')))
  · rw [l₁, l₂]
    intro e
    have e' := congrArg String.data (Option.some.inj e)
    simp only [String.data_append] at e'
    exact hcontra (specMirrorDir_inj (String.ext (List.append_cancel_right e')))
  · intro hph hqh hpb hqb
    refine ⟨r₁, hr₁', a₁, a₂, ?_, l₁, l₂, ?_⟩
    · rw [resolvedDir_specBackupDir r₁ p _ hph hpb, resolvedDir_specBackupDir r₁ q _ hqh hqb]
      intro e
      have e' := List.append_cancel_left (Prod.mk.inj e).2
      simp only [List.cons.injEq] at e'
      exact hcontra ⟨e'.1, e'.2.1⟩
    · rw [resolvedDir_specMirrorDir r₁ p hph hpb, resolvedDir_specMirrorDir r₁ q hqh hqb]
      intro e
      have e' := List.append_cancel_left (Prod.mk.inj e).2
      simp only [List.cons.injEq] at e'
      exact hcontra ⟨e'.1, e'.2.1⟩

theorem prepareCommands_partition_witness :
    prepareCommands sampleResolved sampleNormalized sampleClock = .ok sampleCommands
    ∧ (sampleResolved.get ⟨0, by decide⟩).host ≠ (sampleResolved.get ⟨2, by decide⟩).host
    ∧ PlainElement (sampleResolved.get ⟨0, by decide⟩).host
    ∧ PlainElement (sampleResolved.get ⟨2, by decide⟩).host
    ∧ PlainElement (pathBase (sampleResolved.get ⟨0, by decide⟩).path)
    ∧ PlainElement (pathBase (sampleResolved.get ⟨2, by decide⟩).path)
    ∧ resolvedDir "/backup/db/lib/2024-01-10" = (true, ["backup", "db", "lib", "2024-01-10"])
    ∧ resolvedDir "/backup/web/srv/current/" = (true, ["backup", "web", "srv", "current"])
    ∧ ((sampleCommands.get ⟨0, by decide⟩).args.get? 3
          ≠ (sampleCommands.get ⟨2, by decide⟩).args.get? 3
      ∧ (sampleCommands.get ⟨0, by decide⟩).args.getLast?
          ≠ (sampleCommands.get ⟨2, by decide⟩).args.getLast?
      ∧ (PlainElement (sampleResolved.get ⟨0, by decide⟩).host →
          PlainElement (sampleResolved.get ⟨2, by decide⟩).host →
          PlainElement (pathBase (sampleResolved.get ⟨0, by decide⟩).path) →
          PlainElement (pathBase (sampleResolved.get ⟨2, by decide⟩).path) →
          ∃ root, sampleNormalized.Root_dir = Value.str root
            ∧ (sampleCommands.get ⟨0, by decide⟩).args.get? 3
                = some ("--backup-dir="
                    ++ specBackupDir root (sampleResolved.get ⟨0, by decide⟩) (sampleClock 0))
            ∧ (sampleCommands.get ⟨2, by decide⟩).args.get? 3
                = some ("--backup-dir="
                    ++ specBackupDir root (sampleResolved.get ⟨2, by decide⟩) (sampleClock 2))
            ∧ resolvedDir (specBackupDir root (sampleResolved.get ⟨0, by decide⟩)
                  (sampleClock 0))
                ≠ resolvedDir (specBackupDir root (sampleResolved.get ⟨2, by decide⟩)
                  (sampleClock 2))
            ∧ (sampleCommands.get ⟨0, by decide⟩).args.getLast?
                = some (specMirrorDir root (sampleResolved.get ⟨0, by decide⟩) ++ "/")
            ∧ (sampleCommands.get ⟨2, by decide⟩).args.getLast?
                = some (specMirrorDir root (sampleResolved.get ⟨2, by decide⟩) ++ "/")
            ∧ resolvedDir (specMirrorDir root (sampleResolved.get ⟨0, by decide⟩) ++ "/")
                ≠ resolvedDir
                    (specMirrorDir root (sampleResolved.get ⟨2, by decide⟩) ++ "/"))) :=
  ⟨by decide, by decide, by decide, by decide, by decide, by decide, by decide, by decide,
    prepareCommands_partition sampleResolved sampleNormalized sampleClock sampleCommands 0 2
      (sampleResolved.get ⟨0, by decide⟩) (sampleResolved.get ⟨2, by decide⟩)
      (sampleCommands.get ⟨0, by decide⟩) (sampleCommands.get ⟨2, by decide⟩)
      (by decide) (by decide) (by decide) (by decide) (by decide) (Or.inl (by decide))⟩

/-- A text that begins with `--backup-dir=` shares its first characters with it. -/
theorem take_of_beginsWith {a b : List Char} (k : Nat) (hk : k ≤ 13) (ha : k ≤ a.length)
    (h : "--backup-dir=".data <+: a ++ b) : a.take k = "--backup-dir=".data.take k := by
  obtain ⟨t, ht⟩ := h
  have h1 : (a ++ b).take k = a.take k := List.take_append_of_le_length ha
  have h2 : ("--backup-dir=".data ++ t).take k = "--backup-dir=".data.take k :=
    List.take_append_of_le_length (by
      have : "--backup-dir=".data.length = 13 := rfl
      omega)
  rw [← h1, ← ht, h2]

theorem logFile_not_backupDir (host : String) :
    ¬ beginsWithBackupDir ("--log-file=" ++ rsyncLogFilePattern ++ "." ++ host ++ ".log") := by
  intro h
  unfold beginsWithBackupDir at h
  simp only [String.append_assoc, String.data_append] at h
  have := take_of_beginsWith 3 (by decide) (by decide) h
  revert this
  decide

theorem specLimitArgs_not_backupDir (p : Path) :
    ∀ a ∈ specLimitArgs p, ¬ beginsWithBackupDir a := by
  intro a ha h
  unfold specLimitArgs at ha
  split at ha
  · simp only [List.mem_singleton] at ha
    subst ha
    unfold beginsWithBackupDir at h
    simp only [String.data_append] at h
    have := take_of_beginsWith 4 (by decide) (by decide) h
    revert this
    decide
  · simp at ha

/-- The live mirror begins with `--backup-dir=` only if the root directory does. -/
theorem specMirrorDir_not_backupDir {root : String} (p : Path)
    (h : ¬ beginsWithBackupDir root) : ¬ beginsWithBackupDir (specMirrorDir root p ++ "/") := by
  intro hm
  apply h
  obtain ⟨rest, hrest⟩ :
      ∃ rest, (specMirrorDir root p ++ "/").data = root.data ++ '/' :: rest := by
    refine ⟨p.host.data ++ '/' :: ((pathBase p.path).data ++ "/current/".data), ?_⟩
    simp only [specMirrorDir, String.data_append, List.append_assoc]
    rfl
  unfold beginsWithBackupDir at hm ⊢
  rw [hrest] at hm
  have hroot : root.data <+: root.data ++ '/' :: rest := ⟨_, rfl⟩
  rcases List.prefix_or_prefix_of_prefix hm hroot with h1 | ⟨t, ht⟩
  · exact h1
  · rw [← ht] at hm
    have ht' := (List.prefix_append_right_inj root.data).1 hm
    cases t with
    | nil =>
      rw [List.append_nil] at ht
      rw [ht]
    | cons c t =>
      have hc : c = '/' := (List.cons_prefix_cons.1 ht').1
      have hmem : '/' ∈ "--backup-dir=".data := by
        rw [← ht, hc]
        simp
      exact absurd hmem (by decide)

/-- C12 fails as stated: for a host named `--backup-dir=x` the source address is a second
argument that starts with `--backup-dir=`. -/
theorem prepareCommands_backupDir_counterexample :
    prepareCommands [optionLikePath] sampleNormalized sampleClock =
      .ok [{ cmd := "rsync",
             args := ["-avHAX", "--delete", "--backup",
               "--backup-dir=/backup/--backup-dir=x/srv/2024-01-10",
               "--log-file=/var/log/backup-rsync.--backup-dir=x.log",
               "--backup-dir=x:/srv/", "/backup/--backup-dir=x/srv/current/"] }]
    ∧ List.filter (fun a => decide (beginsWithBackupDir a))
        ["-avHAX", "--delete", "--backup",
          "--backup-dir=/backup/--backup-dir=x/srv/2024-01-10",
          "--log-file=/var/log/backup-rsync.--backup-dir=x.log",
          "--backup-dir=x:/srv/", "/backup/--backup-dir=x/srv/current/"]
      = ["--backup-dir=/backup/--backup-dir=x/srv/2024-01-10", "--backup-dir=x:/srv/"] := by
  decide

/-- C12, amended: for every path `p`, root directory and run date, the fourth argument of
the command `prepareCommands` builds for `p` is `--backup-dir=` followed by
`<rootDir>/<p.host>/<base name of p.path>/<date as YYYY-MM-DD>`, and it is the only argument
that starts with `--backup-dir=` when neither the root directory nor the source address
(login user, else host name) starts with `--backup-dir=`. -/
theorem prepareCommands_backupDir (paths : List Path) (config : Config) (clock : Nat → Date)
    (cmds : List Command) (i : Nat) (p : Path) (s : Command)
    (h : prepareCommands paths config clock = .ok cmds)
    (hp : paths.get? i = some p) (hs : cmds.get? i = some s) :
    ∃ root, config.Root_dir = Value.str root
      ∧ s.args.get? 3 = some ("--backup-dir=" ++ root ++ "/" ++ p.host ++ "/"
          ++ pathBase p.path ++ "/" ++ formatDate (clock i))
      ∧ (¬ beginsWithBackupDir root → ¬ beginsWithBackupDir (specSource p) →
          s.args.filter (fun a => decide (beginsWithBackupDir a))
            = ["--backup-dir=" ++ root ++ "/" ++ p.host ++ "/" ++ pathBase p.path ++ "/"
                ++ formatDate (clock i)]) := by
  obtain ⟨_, hget⟩ := prepareCommands_get h
  obtain ⟨s', hs', hc⟩ := hget i p hp
  rw [hs] at hs'
  obtain rfl := Option.some.inj hs'
  obtain ⟨root, hroot, hargs, h3, _, _⟩ := prepareCommand_args hc
  have e : "--backup-dir=" ++ root ++ "/" ++ p.host ++ "/" ++ pathBase p.path ++ "/"
      ++ formatDate (clock i) = "--backup-dir=" ++ specBackupDir root p (clock i) := by
    simp only [specBackupDir, String.append_assoc]
  refine ⟨root, hroot, by rw [h3, e], fun hr hsrc => ?_⟩
  have hyes : beginsWithBackupDir ("--backup-dir=" ++ specBackupDir root p (clock i)) := by
    unfold beginsWithBackupDir
    rw [String.data_append]
    exact ⟨_, rfl⟩
  have hlog := logFile_not_backupDir p.host
  have hmir := specMirrorDir_not_backupDir p hr
  have hlim : (specLimitArgs p).filter (fun a => decide (beginsWithBackupDir a)) = [] := by
    rw [List.filter_eq_nil_iff]
    intro a ha
    simpa using specLimitArgs_not_backupDir p a ha
  have h1 : ¬ beginsWithBackupDir "-avHAX" := by decide
  have h2 : ¬ beginsWithBackupDir "--delete" := by decide
  have h3' : ¬ beginsWithBackupDir "--backup" := by decide
  rw [hargs, e, List.filter_append, List.filter_append, hlim]
  simp [List.filter_cons, h1, h2, h3', hyes, hlog, hmir, hsrc]

theorem prepareCommands_backupDir_witness :
    prepareCommands sampleResolved sampleNormalized sampleClock = .ok sampleCommands
    ∧ ∃ root, sampleNormalized.Root_dir = Value.str root
      ∧ (sampleCommands.get ⟨1, by decide⟩).args.get? 3
          = some ("--backup-dir=" ++ root ++ "/" ++ (sampleResolved.get ⟨1, by decide⟩).host
              ++ "/" ++ pathBase (sampleResolved.get ⟨1, by decide⟩).path ++ "/"
              ++ formatDate (sampleClock 1))
      ∧ (¬ beginsWithBackupDir root →
          ¬ beginsWithBackupDir (specSource (sampleResolved.get ⟨1, by decide⟩)) →
          (sampleCommands.get ⟨1, by decide⟩).args.filter
              (fun a => decide (beginsWithBackupDir a))
            = ["--backup-dir=" ++ root ++ "/" ++ (sampleResolved.get ⟨1, by decide⟩).host
                ++ "/" ++ pathBase (sampleResolved.get ⟨1, by decide⟩).path ++ "/"
                ++ formatDate (sampleClock 1)]) :=
  ⟨by decide,
    prepareCommands_backupDir sampleResolved sampleNormalized sampleClock sampleCommands 1
      (sampleResolved.get ⟨1, by decide⟩) (sampleCommands.get ⟨1, by decide⟩)
      (by decide) (by decide) (by decide)⟩

/-- C13: for every path `p`, the second-to-last argument of the command `prepareCommands`
builds for `p` is the source address, `<loginUser>@<host>:<path>/` when a login user is set
and `<host>:<path>/` otherwise; the command list is built whenever `root_dir` and the login
users are texts and the bandwidth limits integers. -/
theorem prepareCommands_source (paths : List Path) (config : Config) (clock : Nat → Date) :
    (∀ cmds i p s, prepareCommands paths config clock = .ok cmds →
      paths.get? i = some p → cmds.get? i = some s →
        (p.loginUser = Value.nil →
          s.args.get? (s.args.length - 2) = some (p.host ++ ":" ++ p.path ++ "/"))
        ∧ (p.loginUser ≠ Value.nil → ∃ user, p.loginUser = Value.str user
            ∧ s.args.get? (s.args.length - 2)
                = some (user ++ "@" ++ p.host ++ ":" ++ p.path ++ "/")))
    ∧ ((∃ root, config.Root_dir = Value.str root) →
        (∀ p ∈ paths, p.bandwidthLimit.isOptInt = true ∧ p.loginUser.isOptString = true) →
        ∃ cmds, prepareCommands paths config clock = .ok cmds) := by
  refine ⟨fun cmds i p s h hp hs => ?_, fun ⟨root, hroot⟩ ht =>
    prepareCommands_total clock hroot ht⟩
  obtain ⟨_, hget⟩ := prepareCommands_get h
  obtain ⟨s', hs', hc⟩ := hget i p hp
  rw [hs] at hs'
  obtain rfl := Option.some.inj hs'
  obtain ⟨_, _, hl⟩ := prepareCommand_typed hc
  obtain ⟨root, _, _, _, hsrc, _⟩ := prepareCommand_args hc
  rw [hsrc]
  constructor
  · intro h0
    simp [specSource, h0]
  · intro hne
    rcases isOptString_cases hl with h0 | ⟨u, hu⟩
    · exact absurd h0 hne
    · exact ⟨u, hu, by simp [specSource, hu]⟩

theorem prepareCommands_source_witness :
    prepareCommands sampleResolved sampleNormalized sampleClock = .ok sampleCommands
    ∧ (sampleCommands.get ⟨0, by decide⟩).args.get? 5 = some "backup@db:/var/lib/"
    ∧ (sampleCommands.get ⟨2, by decide⟩).args.get? 5 = some "web:/srv/"
    ∧ ((sampleResolved.get ⟨2, by decide⟩).loginUser = Value.nil →
        (sampleCommands.get ⟨2, by decide⟩).args.get?
            ((sampleCommands.get ⟨2, by decide⟩).args.length - 2)
          = some ((sampleResolved.get ⟨2, by decide⟩).host ++ ":"
              ++ (sampleResolved.get ⟨2, by decide⟩).path ++ "/"))
    ∧ ((sampleResolved.get ⟨2, by decide⟩).loginUser ≠ Value.nil →
        ∃ user, (sampleResolved.get ⟨2, by decide⟩).loginUser = Value.str user
          ∧ (sampleCommands.get ⟨2, by decide⟩).args.get?
              ((sampleCommands.get ⟨2, by decide⟩).args.length - 2)
            = some (user ++ "@" ++ (sampleResolved.get ⟨2, by decide⟩).host ++ ":"
                ++ (sampleResolved.get ⟨2, by decide⟩).path ++ "/")) :=
  ⟨by decide, by decide, by decide,
    (prepareCommands_source sampleResolved sampleNormalized sampleClock).1 sampleCommands 2
      (sampleResolved.get ⟨2, by decide⟩) (sampleCommands.get ⟨2, by decide⟩)
      (by decide) (by decide) (by decide)⟩


/-! ## preparePathsOrder: nothing lost, nothing doubled -/

theorem filter_flatMap {α : Type} (f : Path → Bool) (g : α → List Path) (l : List α) :
    (l.flatMap g).filter f = l.flatMap fun x => (g x).filter f := by
  induction l with
  | nil => rfl
  | cons a l ih => simp [List.flatMap_cons, List.filter_append, ih]

/-- The entries that distinct keys contribute to a round, read for one host. -/
theorem filterMap_queue_filter (q : String → List Path) (hq : ∀ k, ∀ p ∈ q k, p.host = k)
    (r : Nat) (h : String) : ∀ (ks : List String), ks.Nodup →
      (ks.filterMap fun k => (q k).get? r).filter (fun p => p.host = h)
        = if h ∈ ks then ((q h).get? r).toList else [] := by
  intro ks
  induction ks with
  | nil => intro _; simp
  | cons k ks ih =>
    intro hnd
    obtain ⟨hk, hks⟩ := List.nodup_cons.1 hnd
    rw [List.filterMap_cons]
    cases hg : (q k).get? r with
    | none =>
      simp only []
      rw [ih hks]
      by_cases e : h = k
      · subst e
        rw [List.get?_eq_getElem?] at hg
        simp [hk, hg]
      · simp [e]
    | some p =>
      have hp : p.host = k := hq k p (List.get?_mem hg)
      simp only [List.filter_cons, hp]
      rw [ih hks]
      by_cases e : k = h
      · subst e
        rw [List.get?_eq_getElem?] at hg
        simp [hk, hg]
      · have e' : ¬ h = k := fun x => e x.symm
        simp [e, e']

theorem flatMap_get?_toList (l : List Path) :
    ∀ n, ((List.range n).flatMap fun r => (l.get? r).toList) = l.take n := by
  intro n
  induction n with
  | zero => simp
  | succ n ih =>
    rw [List.range_succ, List.flatMap_append, ih, List.take_succ]
    simp

/-- The entries of one host come out of `preparePathsOrder` in their input order. -/
theorem preparePathsOrder_filter_host (paths : List Path) (h : String) :
    (preparePathsOrder paths).filter (fun p => p.host = h)
      = paths.filter (fun p => p.host = h) := by
  rw [preparePathsOrder_eq]
  unfold specInterleave
  rw [filter_flatMap]
  have hround : ∀ r, (specRound paths r).filter (fun p => p.host = h)
      = ((paths.filter fun p => p.host = h).get? r).toList := by
    intro r
    unfold specRound
    rw [filterMap_queue_filter (fun k => paths.filter fun p => p.host = k)
      (fun k p hp => by simpa using (List.mem_filter.1 hp).2) r h _
      (sortStrings_nodup (List.nodup_dedup _))]
    by_cases hm : h ∈ sortStrings (paths.map (·.host)).dedup
    · simp [hm]
    · simp only [hm, if_false]
      have hnone : ∀ p ∈ paths, ¬ p.host = h := by
        intro p hp e
        apply hm
        rw [(sortStrings_perm _).mem_iff, List.mem_dedup, List.mem_map]
        exact ⟨p, hp, e⟩
      have : (paths.filter fun p => p.host = h) = [] := by
        rw [List.filter_eq_nil_iff]
        intro p hp
        simpa using hnone p hp
      rw [this]
      rfl
  simp only [hround]
  rw [flatMap_get?_toList]
  exact List.take_of_length_le (List.length_filter_le _ _)

/-- The output of `preparePathsOrder` is a rearrangement of its input. -/
theorem preparePathsOrder_perm_input (paths : List Path) :
    (preparePathsOrder paths).Perm paths := by
  rw [List.perm_iff_count]
  intro a
  rw [← List.count_filter (l := preparePathsOrder paths) (p := fun p => p.host = a.host)
      (by simp),
    ← List.count_filter (l := paths) (p := fun p => p.host = a.host) (by simp),
    preparePathsOrder_filter_host]

/-- C18: for every list of paths, the output of `preparePathsOrder` is a permutation of its
input (same length, same entries with the same multiplicities), and the entries of each
host keep their relative input order. -/
theorem preparePathsOrder_permutation (paths : List Path) :
    (preparePathsOrder paths).Perm paths
    ∧ (preparePathsOrder paths).length = paths.length
    ∧ (∀ p, (preparePathsOrder paths).count p = paths.count p)
    ∧ ∀ h, (preparePathsOrder paths).filter (fun p => p.host = h)
        = paths.filter (fun p => p.host = h) :=
  ⟨preparePathsOrder_perm_input paths, (preparePathsOrder_perm_input paths).length_eq,
    fun p => (preparePathsOrder_perm_input paths).count_eq p,
    preparePathsOrder_filter_host paths⟩


/-! ## Claims about failure -/

/-- C14 fails as stated: a validated configuration whose directory has the
`bandwidth_limit` `"10M"` passes `getPaths`, `validatePaths` and `preparePathsOrder`, and
`prepareCommands` then stops on the failed assertion `p.bandwidthLimit.(int)`. -/
theorem prepareCommands_noFailure_counterexample :
    validateParams textLimitConfig = .ok textLimitConfig
    ∧ resolvePaths textLimitConfig = .ok ([textLimitPath], textLimitConfig)
    ∧ preparePathsOrder [textLimitPath] = [textLimitPath]
    ∧ prepareCommands (preparePathsOrder [textLimitPath]) textLimitConfig sampleClock
        = .error .panic := by
  decide

/-- The optional fields of the resolved entries are those of the configuration. -/
theorem resolvePaths_optionals {config config' : Config} {ps : List Path}
    (h : resolvePaths config = .ok (ps, config')) (ht : OptionalsTyped config = true) :
    ∀ p ∈ ps, p.bandwidthLimit.isOptInt = true ∧ p.loginUser.isOptString = true := by
  have hf := (resolvePaths_ok h).1
  have key : ∀ (l : List (Host × Dir)) (qs : List Path),
      (∀ hd ∈ l, hd.1 ∈ config.Hosts ∧ hd.2 ∈ hd.1.Dirs) →
      List.Forall₂
        (fun (hd : Host × Dir) q =>
          q.host = hd.1.Name ∧ q.path = stripTrailingSlash hd.2.Path
            ∧ q.bandwidthLimit = hd.2.Bandwidth_limit ∧ q.loginUser = hd.1.Login_user
            ∧ resolveRetention config hd.1 hd.2 = .ok q.retentionDays
            ∧ resolveLimit config hd.1 = .ok q.concurrentRsyncLimit) l qs →
      ∀ p ∈ qs, p.bandwidthLimit.isOptInt = true ∧ p.loginUser.isOptString = true := by
    intro l qs hl hall
    induction hall with
    | nil => intro p hp; simp at hp
    | @cons hd q l qs hq _ ih =>
      intro p hp
      rcases List.mem_cons.1 hp with e | hp'
      · subst e
        obtain ⟨hh, hd'⟩ := hl hd (List.mem_cons_self _ _)
        simp only [OptionalsTyped, List.all_eq_true, Bool.and_eq_true] at ht
        obtain ⟨h1, h2⟩ := ht hd.1 hh
        rw [hq.2.2.1, hq.2.2.2.1]
        exact ⟨h2 hd.2 hd', h1⟩
      · exact ih (fun x hx => hl x (List.mem_cons_of_mem _ hx)) p hp'
  apply key _ _ _ hf
  intro hd hk
  simp only [keptDirs, allDirs, List.mem_filter, List.mem_flatMap, List.mem_map] at hk
  obtain ⟨⟨host, hh, d, hd', e⟩, _⟩ := hk
  subst e
  exact ⟨hh, hd'⟩

/-- C14, amended: for every configuration accepted by `validateParams` in which every
`bandwidth_limit` is absent or an integer and every `login_user` is absent or a text, and
every path list obtained from it through `getPaths`, `validatePaths` and
`preparePathsOrder`, `prepareCommands` returns a command list, one command per path, without
a failed type assertion. -/
theorem prepareCommands_noFailure (config config₁ config₂ : Config) (ps : List Path)
    (clock : Nat → Date)
    (hv : validateParams config = .ok config₁)
    (hr : resolvePaths config₁ = .ok (ps, config₂))
    (ht : OptionalsTyped config = true) :
    ∃ cmds, prepareCommands (preparePathsOrder ps) config₂ clock = .ok cmds
      ∧ cmds.length = ps.length := by
  have hH := (validateParams_ok hv).2.2.1
  have ht₁ : OptionalsTyped config₁ = true := by
    simpa [OptionalsTyped, hH] using ht
  have hopt := resolvePaths_optionals hr ht₁
  obtain ⟨_, root, _, hc⟩ := resolvePaths_ok hr
  have hroot : config₂.Root_dir = Value.str (stripTrailingSlash root) := by rw [hc]
  have htyped : ∀ p ∈ preparePathsOrder ps,
      p.bandwidthLimit.isOptInt = true ∧ p.loginUser.isOptString = true :=
    fun p hp => hopt p ((preparePathsOrder_perm_input ps).mem_iff.1 hp)
  obtain ⟨cmds, hcmds⟩ := prepareCommands_total clock hroot htyped
  exact ⟨cmds, hcmds, by
    rw [(prepareCommands_get hcmds).1, (preparePathsOrder_perm_input ps).length_eq]⟩

theorem prepareCommands_noFailure_witness :
    validateParams sampleConfig = .ok sampleValidated
    ∧ resolvePaths sampleValidated = .ok (sampleResolved, sampleNormalized)
    ∧ OptionalsTyped sampleConfig = true
    ∧ ∃ cmds, prepareCommands (preparePathsOrder sampleResolved) sampleNormalized sampleClock
        = .ok cmds ∧ cmds.length = sampleResolved.length :=
  ⟨by decide, by decide, by decide,
    prepareCommands_noFailure sampleConfig sampleValidated sampleNormalized sampleResolved
      sampleClock (by decide) (by decide) (by decide)⟩

/-- C15: `validateParams` stops the run, with `log.Fatal` and in no other way, if and only
if `root_dir` is absent; otherwise it returns the configuration with `root_dir`, the hosts
and every `concurrent_rsync` and `retention_days` that is set (an explicit 0 included)
unchanged, an absent `concurrent_rsync` set to 3 and an absent `retention_days` set to 7. -/
theorem validateParams_contract (config : Config) :
    (validateParams config = .error .fatal ↔ config.Root_dir = Value.nil)
    ∧ (∀ e, validateParams config = .error e → e = Failure.fatal)
    ∧ (config.Root_dir ≠ Value.nil →
        validateParams config = .ok
          { config with
            Concurrent_rsync :=
              if config.Concurrent_rsync = Value.nil then Value.int 3
              else config.Concurrent_rsync
            Retention_days :=
              if config.Retention_days = Value.nil then Value.int 7
              else config.Retention_days })
    ∧ (∀ config', validateParams config = .ok config' →
        config'.Root_dir = config.Root_dir ∧ config'.Hosts = config.Hosts
          ∧ (config.Concurrent_rsync ≠ Value.nil →
              config'.Concurrent_rsync = config.Concurrent_rsync)
          ∧ (config.Concurrent_rsync = Value.nil → config'.Concurrent_rsync = Value.int 3)
          ∧ (config.Retention_days ≠ Value.nil →
              config'.Retention_days = config.Retention_days)
          ∧ (config.Retention_days = Value.nil → config'.Retention_days = Value.int 7)) := by
  refine ⟨?_, ?_, ?_, ?_⟩
  · unfold validateParams
    by_cases h1 : config.Concurrent_rsync = Value.nil <;>
      by_cases h2 : config.Retention_days = Value.nil <;>
      by_cases h3 : config.Root_dir = Value.nil <;>
      simp [h1, h2, h3]
  · intro e h
    unfold validateParams at h
    by_cases h1 : config.Concurrent_rsync = Value.nil <;>
      by_cases h2 : config.Retention_days = Value.nil <;>
      by_cases h3 : config.Root_dir = Value.nil <;>
      simp [h1, h2, h3] at h <;> exact h.symm
  · intro h3
    unfold validateParams
    by_cases h1 : config.Concurrent_rsync = Value.nil <;>
      by_cases h2 : config.Retention_days = Value.nil <;>
      simp [h1, h2, h3, defaultConcurrentRsync, defaultRetentionDays]
  · intro config' h
    obtain ⟨e1, _, e2, e3, e4⟩ := validateParams_ok h
    refine ⟨e1, e2, ?_, ?_, ?_, ?_⟩
    · intro hne
      rw [e3, specGlobalLimit, if_pos hne]
    · intro h0
      rw [e3, specGlobalLimit, if_neg (by simp [h0])]
    · intro hne
      rw [e4, if_pos hne]
    · intro h0
      rw [e4, if_neg (by simp [h0])]

theorem validateParams_contract_witness :
    sampleConfig.Root_dir ≠ Value.nil
    ∧ validateParams sampleConfig = .ok sampleValidated
    ∧ validateParams { sampleConfig with Root_dir := Value.nil } = .error .fatal
    ∧ validateParams { sampleConfig with Retention_days := Value.int 0 }
        = .ok { sampleValidated with Retention_days := Value.int 0 }
    ∧ validateParams sampleConfig = .ok
        { sampleConfig with
          Concurrent_rsync :=
            if sampleConfig.Concurrent_rsync = Value.nil then Value.int 3
            else sampleConfig.Concurrent_rsync
          Retention_days :=
            if sampleConfig.Retention_days = Value.nil then Value.int 7
            else sampleConfig.Retention_days } :=
  ⟨by decide, by decide, by decide, by decide,
    (validateParams_contract sampleConfig).2.2.1 (by decide)⟩


/-! ## Claims about the sweep -/

theorem selectedForDeletion_parses {now R : Int} {name : String}
    (h : selectedForDeletion now R name = true) : parseDate name ≠ none := by
  intro hn
  simp [selectedForDeletion, parseUnix, hn] at h

/-- What `sweepPath` removes lies directly under the scanned directory and is named by a
selected entry of its listing. -/
theorem mem_sweepPath {now : Int} {fs : String → Option (List String)} {root : String}
    {p : Path} {x : String} (h : x ∈ sweepPath now fs root p) :
    ∃ items name, fs (scanDir root p) = some items ∧ name ∈ items
      ∧ selectedForDeletion now p.retentionDays name = true
      ∧ x = scanDir root p ++ "/" ++ name := by
  unfold sweepPath at h
  cases hfs : fs (scanDir root p) with
  | none => simp [hfs] at h
  | some items =>
    simp only [hfs, List.mem_map, deleteExpiredBackups, List.mem_filter] at h
    obtain ⟨name, ⟨hm, hsel⟩, e⟩ := h
    exact ⟨items, name, rfl, hm, hsel, e.symm⟩

theorem append_left_cancel_string {a b c : String} (h : a ++ b = a ++ c) : b = c := by
  have h' := congrArg String.data h
  simp only [String.data_append] at h'
  exact String.ext (List.append_cancel_left h')

/-- Every path the whole sweep removes is an entry, with a name that parses as a date, of
the directory scanned for one of the paths. -/
theorem mem_sweepPaths (now : Int) (fs : String → Option (List String)) (config : Config) :
    ∀ (paths : List Path) (removed : List String),
      sweepPaths now fs config paths = .ok removed →
      ∀ x ∈ removed, ∃ p ∈ paths, ∃ root items name,
        config.Root_dir = Value.str root ∧ fs (scanDir root p) = some items ∧ name ∈ items
          ∧ parseDate name ≠ none ∧ x = scanDir root p ++ "/" ++ name := by
  intro paths
  induction paths with
  | nil =>
    intro removed h x hx
    simp only [sweepPaths, Except.ok.injEq] at h
    subst h
    simp at hx
  | cons p rest ih =>
    intro removed h x hx
    unfold sweepPaths at h
    cases hroot : config.Root_dir with
    | str root =>
      simp only [hroot, assertString] at h
      cases hrest : sweepPaths now fs config rest with
      | error e => simp [hrest] at h
      | ok more =>
        simp only [hrest, Except.ok.injEq] at h
        subst h
        rcases List.mem_append.1 hx with h1 | h1
        · obtain ⟨items, name, hfs, hm, hsel, e⟩ := mem_sweepPath h1
          exact ⟨p, List.mem_cons_self _ _, root, items, name, rfl, hfs, hm,
            selectedForDeletion_parses hsel, e⟩
        · obtain ⟨q, hq, r, items, name, hr, rest'⟩ := ih more hrest x h1
          exact ⟨q, List.mem_cons_of_mem _ hq, r, items, name, hroot.symm.trans hr, rest'⟩
    | nil => simp [hroot, assertString] at h
    | int n => simp [hroot, assertString] at h
    | other t => simp [hroot, assertString] at h

/-- C17: for every current time and every retention, `deleteExpiredBackups` never selects
for deletion a directory entry whose name does not parse as a `YYYY-MM-DD` calendar date,
whatever the listing and the disk: every path the sweep removes is an entry whose name
parses; in particular the live mirror entry `current` is never deleted by the sweep. -/
theorem deleteExpiredBackups_skips_nondates (now R : Int) (name : String)
    (hname : parseDate name = none) :
    (∀ items : List String, name ∉ deleteExpiredBackups now R items)
    ∧ (∀ (fs : String → Option (List String)) (root : String) (p : Path),
        scanDir root p ++ "/" ++ name ∉ sweepPath now fs root p)
    ∧ (∀ items : List String, "current" ∉ deleteExpiredBackups now R items)
    ∧ (∀ (fs : String → Option (List String)) (root : String) (p : Path),
        scanDir root p ++ "/" ++ "current" ∉ sweepPath now fs root p)
    ∧ (∀ (fs : String → Option (List String)) (config : Config) (paths : List Path)
        (removed : List String), sweepPaths now fs config paths = .ok removed →
        ∀ x ∈ removed, ∃ p ∈ paths, ∃ root items entry,
          config.Root_dir = Value.str root ∧ fs (scanDir root p) = some items
            ∧ entry ∈ items ∧ parseDate entry ≠ none
            ∧ x = scanDir root p ++ "/" ++ entry) := by
  have key : ∀ n : String, parseDate n = none →
      (∀ items : List String, n ∉ deleteExpiredBackups now R items)
      ∧ ∀ (fs : String → Option (List String)) (root : String) (p : Path),
        scanDir root p ++ "/" ++ n ∉ sweepPath now fs root p := by
    intro n hn
    constructor
    · intro items hm
      simp only [deleteExpiredBackups, List.mem_filter] at hm
      exact selectedForDeletion_parses hm.2 hn
    · intro fs root p hm
      obtain ⟨items, name', _, _, hsel, e⟩ := mem_sweepPath hm
      rw [String.append_assoc, String.append_assoc] at e
      have e' := append_left_cancel_string (append_left_cancel_string e)
      subst e'
      exact selectedForDeletion_parses hsel hn
  exact ⟨(key name hname).1, (key name hname).2, (key "current" (by decide)).1,
    (key "current" (by decide)).2, fun fs config paths removed h =>
      mem_sweepPaths now fs config paths removed h⟩

theorem deleteExpiredBackups_skips_nondates_witness :
    parseDate "notes.txt" = none
    ∧ sweepPaths 1704844800 sampleDisk sampleNormalized sampleResolved
        = .ok ["/backup/web/srv/2024-01-02"]
    ∧ (∀ items : List String, "notes.txt" ∉ deleteExpiredBackups 1704844800 7 items)
    ∧ (∀ items : List String, "current" ∉ deleteExpiredBackups 1704844800 7 items) :=
  ⟨by decide, by decide,
    (deleteExpiredBackups_skips_nondates 1704844800 7 "notes.txt" (by decide)).1,
    (deleteExpiredBackups_skips_nondates 1704844800 7 "notes.txt" (by decide)).2.2.1⟩

/-- C19: the sweep looks where the transfer writes. For every path `p`, the directory
`deleteExpiredBackups` lists for `p`, `<rootDir>/<host>/<base name of path>`, is the parent
of the `--backup-dir` of the command built for `p` (that directory followed by one more
path element, the date) and of its live mirror destination, the last argument (that
directory followed by the element `current`); the sweep reads the disk at no other place for
`p`, and what it removes lies directly under that directory. -/
theorem sweep_scans_parent_of_destinations (paths : List Path) (config : Config)
    (clock : Nat → Date) (cmds : List Command) (i : Nat) (p : Path) (s : Command)
    (h : prepareCommands paths config clock = .ok cmds)
    (hp : paths.get? i = some p) (hs : cmds.get? i = some s) :
    ∃ root, config.Root_dir = Value.str root
      ∧ scanDir root p = root ++ "/" ++ p.host ++ "/" ++ pathBase p.path
      ∧ s.args.get? 3
          = some ("--backup-dir=" ++ (scanDir root p ++ "/" ++ formatDate (clock i)))
      ∧ '/' ∉ (formatDate (clock i)).data ∧ (formatDate (clock i)).data ≠ []
      ∧ s.args.getLast? = some (scanDir root p ++ "/" ++ "current" ++ "/")
      ∧ (∀ (now : Int) (fs fs' : String → Option (List String)),
          fs (scanDir root p) = fs' (scanDir root p) →
            sweepPath now fs root p = sweepPath now fs' root p)
      ∧ (∀ (now : Int) (fs : String → Option (List String)), ∀ x ∈ sweepPath now fs root p,
          ∃ name, x = scanDir root p ++ "/" ++ name) := by
  obtain ⟨_, hget⟩ := prepareCommands_get h
  obtain ⟨s', hs', hc⟩ := hget i p hp
  rw [hs] at hs'
  obtain rfl := Option.some.inj hs'
  obtain ⟨root, hroot, _, h3, _, hlast⟩ := prepareCommand_args hc
  refine ⟨root, hroot, rfl, ?_, formatDate_no_slash _, formatDate_ne_empty _, ?_, ?_, ?_⟩
  · rw [h3]
    simp only [specBackupDir, scanDir, String.append_assoc]
  · rw [hlast]
    simp only [specMirrorDir, scanDir, String.append_assoc]
  · intro now fs fs' hfs
    unfold sweepPath
    rw [hfs]
  · intro now fs x hx
    obtain ⟨_, name, _, _, _, e⟩ := mem_sweepPath hx
    exact ⟨name, e⟩

theorem sweep_scans_parent_of_destinations_witness :
    prepareCommands sampleResolved sampleNormalized sampleClock = .ok sampleCommands
    ∧ scanDir "/backup" (sampleResolved.get ⟨2, by decide⟩) = "/backup/web/srv"
    ∧ ∃ root, sampleNormalized.Root_dir = Value.str root
      ∧ scanDir root (sampleResolved.get ⟨2, by decide⟩)
          = root ++ "/" ++ (sampleResolved.get ⟨2, by decide⟩).host ++ "/"
              ++ pathBase (sampleResolved.get ⟨2, by decide⟩).path
      ∧ (sampleCommands.get ⟨2, by decide⟩).args.get? 3
          = some ("--backup-dir=" ++ (scanDir root (sampleResolved.get ⟨2, by decide⟩)
              ++ "/" ++ formatDate (sampleClock 2)))
      ∧ '/' ∉ (formatDate (sampleClock 2)).data ∧ (formatDate (sampleClock 2)).data ≠ []
      ∧ (sampleCommands.get ⟨2, by decide⟩).args.getLast?
          = some (scanDir root (sampleResolved.get ⟨2, by decide⟩) ++ "/" ++ "current" ++ "/")
      ∧ (∀ (now : Int) (fs fs' : String → Option (List String)),
          fs (scanDir root (sampleResolved.get ⟨2, by decide⟩))
              = fs' (scanDir root (sampleResolved.get ⟨2, by decide⟩)) →
            sweepPath now fs root (sampleResolved.get ⟨2, by decide⟩)
              = sweepPath now fs' root (sampleResolved.get ⟨2, by decide⟩))
      ∧ (∀ (now : Int) (fs : String → Option (List String)),
          ∀ x ∈ sweepPath now fs root (sampleResolved.get ⟨2, by decide⟩),
            ∃ name, x = scanDir root (sampleResolved.get ⟨2, by decide⟩) ++ "/" ++ name) :=
  ⟨by decide, by decide,
    sweep_scans_parent_of_destinations sampleResolved sampleNormalized sampleClock
      sampleCommands 2 (sampleResolved.get ⟨2, by decide⟩) (sampleCommands.get ⟨2, by decide⟩)
      (by decide) (by decide) (by decide)⟩

end BackupRsync
